import Mathlib

/-!
Brand tracker front end: the mention feed view-model.

A shallow embedding of the filter/sort pipeline and the detail modal of
`src/components/MentionList.js`, of the mention store of `src/App.js`, of the delete
confirmation and the comma-separated fields of `src/components/BrandManager.js` and of
the metrics of `src/components/Analytics.js` and `src/components/Dashboard.js`.

Conventions of the embedding.

* A JS value that may be `undefined`/`null` is an `Option`.
* A JS number that is an integer or `NaN` is an `Option Int`, `none` being `NaN`.
  The only arithmetic the pipeline performs on such numbers is subtraction inside
  the sort comparator, and only the sign of the result is observed.
* `new Date(timestamp)` is represented by its time value: milliseconds since the
  epoch, or `NaN` for an Invalid Date. The `timestamp` field of a mention holds that
  value.
* `String.prototype.toLowerCase` is a library function outside the repository; the
  definitions take it as the parameter `toLowerCase`. `asciiLower` is the instance
  used for evaluation on ASCII text.
* `Array.prototype.sort` is a stable sort that reads the comparator through
  `SortCompare` (a `NaN` result counts as `+0`); it is embedded as a stable
  insertion sort, which is exact whenever the comparator is consistent. Where the
  comparator is inconsistent the order depends on the engine; `ConformingSort` states
  what every engine guarantees and `mergeSort` is a second admissible implementation.
-/

namespace BrandTracker

/-! ## Data model -/

/-- The optional counters of `mention.engagement`. -/
structure Engagement where
  likes : Option Nat
  shares : Option Nat
  comments : Option Nat
deriving DecidableEq

/-- A mention record as received from the API. `timestamp` is the time value of
`new Date(mention.timestamp)`, `none` standing for an Invalid Date. -/
structure Mention where
  id : String
  brand : String
  source : String
  sentiment : String
  content : String
  author : Option String
  timestamp : Option Int
  engagement : Option Engagement
deriving DecidableEq

/-- The `filters` state of `MentionList`. -/
structure Filters where
  sentiment : String
  source : String
  search : String
deriving DecidableEq

/-- Initial value of the `filters` state (`useState` at lines 7-11). -/
def initialFilters : Filters :=
  { sentiment := "", source := "", search := "" }

/-- Initial value of the `sortBy` state (`useState('newest')`, line 13). -/
def initialSortBy : String := "newest"

/-- The state installed by `clearFilters` (lines 62-64), whatever the state before. -/
def clearFilters (_previous : Filters) : Filters :=
  { sentiment := "", source := "", search := "" }

/-! ## JavaScript primitives used by the pipeline -/

/-- JS truthiness of a string: every string but the empty one is truthy. -/
def truthyString (s : String) : Bool := s != ""

/-- JS truthiness of a value that is a boolean or `undefined`. -/
def truthy (v : Option Bool) : Bool := v.getD false

/-- `s.includes(searchString)`: does `searchString` occur in `s` as a substring. -/
def includes (s searchString : String) : Bool :=
  s.data.tails.any (fun u => searchString.data.isPrefixOf u)

/-- Lower-casing of the letters `A`-`Z`, the behaviour of `toLowerCase` on ASCII text. -/
def asciiLower (s : String) : String := String.mk (s.data.map Char.toLower)

/-- JS subtraction on numbers that are integers or `NaN` (`none`). -/
def jsSub (x y : Option Int) : Option Int :=
  match x, y with
  | some a, some b => some (a - b)
  | _, _ => none

/-- `x || 0` for a counter that is a non-negative integer or absent. -/
def orZero (x : Option Nat) : Nat :=
  match x with
  | some n => n
  | none => 0

/-- Abstract operation `SortCompare` of `Array.prototype.sort` for defined elements:
the comparator result converted to a number, `NaN` replaced by `+0`. -/
def SortCompare {α : Type} (comparefn : α → α → Option Int) (x y : α) : Int :=
  match comparefn x y with
  | some v => v
  | none => 0

/-- `Array.prototype.sort(comparefn)` on a copy of the list: a stable sort that places
`x` before `y` when `SortCompare x y ≤ 0` (insertion of each element into the sorted
remainder, in front of the first element it does not have to follow). For a consistent
comparator this is the arrangement every engine returns; for an inconsistent one the
language leaves the order to the engine and this is one admissible outcome (see
`ConformingSort` and `mergeSort`). -/
def arraySort {α : Type} (comparefn : α → α → Option Int) (l : List α) : List α :=
  l.insertionSort (fun x y => SortCompare comparefn x y ≤ 0)

/-! ## The filter (lines 17-26) -/

/-- First conjunct: `!filters.sentiment || mention.sentiment === filters.sentiment`. -/
def sentimentPredicate (filters : Filters) (mention : Mention) : Bool :=
  !truthyString filters.sentiment || mention.sentiment == filters.sentiment

/-- Second conjunct: `!filters.source || mention.source === filters.source`. -/
def sourcePredicate (filters : Filters) (mention : Mention) : Bool :=
  !truthyString filters.source || mention.source == filters.source

/-- `mention.author?.toLowerCase().includes(filters.search.toLowerCase())`:
`undefined` when the author is absent. -/
def authorIncludes (toLowerCase : String → String) (filters : Filters)
    (mention : Mention) : Option Bool :=
  match mention.author with
  | some a => some (includes (toLowerCase a) (toLowerCase filters.search))
  | none => none

/-- Third conjunct: the `||` chain over the search string, the content and the author. -/
def searchPredicate (toLowerCase : String → String) (filters : Filters)
    (mention : Mention) : Bool :=
  !truthyString filters.search
    || includes (toLowerCase mention.content) (toLowerCase filters.search)
    || truthy (authorIncludes toLowerCase filters mention)

/-- The callback passed to `mentions.filter`. -/
def filterPredicate (toLowerCase : String → String) (filters : Filters)
    (mention : Mention) : Bool :=
  sentimentPredicate filters mention
    && sourcePredicate filters mention
    && searchPredicate toLowerCase filters mention

/-- `filteredMentions` (line 18). -/
def filteredMentions (toLowerCase : String → String) (filters : Filters)
    (mentions : List Mention) : List Mention :=
  mentions.filter (filterPredicate toLowerCase filters)

/-! ## The sort (lines 28-45) -/

/-- `getEngagementScore` (lines 110-112). -/
def getEngagementScore (engagement : Option Engagement) : Nat :=
  orZero (engagement.bind (fun e => e.likes))
    + orZero (engagement.bind (fun e => e.shares))
    + orZero (engagement.bind (fun e => e.comments))

/-- Lookup in the object literal `{ positive: 3, neutral: 2, negative: 1 }`; any other
key yields a value whose numeric conversion is `NaN`. -/
def sentimentOrder (sentiment : String) : Option Int :=
  match sentiment with
  | "positive" => some 3
  | "neutral" => some 2
  | "negative" => some 1
  | _ => none

/-- The comparator passed to `sort` (lines 29-45), for the current `sortBy`. -/
def compareFn (sortBy : String) (a b : Mention) : Option Int :=
  match sortBy with
  | "newest" => jsSub b.timestamp a.timestamp
  | "oldest" => jsSub a.timestamp b.timestamp
  | "engagement" =>
    let engagementA : Nat :=
      orZero (a.engagement.bind (fun e => e.likes))
        + orZero (a.engagement.bind (fun e => e.shares))
        + orZero (a.engagement.bind (fun e => e.comments))
    let engagementB : Nat :=
      orZero (b.engagement.bind (fun e => e.likes))
        + orZero (b.engagement.bind (fun e => e.shares))
        + orZero (b.engagement.bind (fun e => e.comments))
    some ((engagementB : Int) - (engagementA : Int))
  | "sentiment" => jsSub (sentimentOrder b.sentiment) (sentimentOrder a.sentiment)
  | _ => some 0

/-- `sortedMentions` (line 29): the derived view of the pipeline. -/
def sortedMentions (toLowerCase : String → String) (filters : Filters) (sortBy : String)
    (mentions : List Mention) : List Mention :=
  arraySort (compareFn sortBy) (filteredMentions toLowerCase filters mentions)

/-! ## The clauses of the filter as the specification words them -/

/-- Substring containment: `t` occurs in `s`. -/
def Contains (s t : String) : Prop := t.data <:+: s.data

/-- Clause 1: `criteria.sentiment == "" OR mention.sentiment == criteria.sentiment`. -/
def SentimentClause (filters : Filters) (mention : Mention) : Prop :=
  filters.sentiment = "" ∨ mention.sentiment = filters.sentiment

/-- Clause 2: `criteria.source == "" OR mention.source == criteria.source`. -/
def SourceClause (filters : Filters) (mention : Mention) : Prop :=
  filters.source = "" ∨ mention.source = filters.source

/-- Clause 3: the search string is empty, or the lower-cased content contains the
lower-cased search string, or the author is present and does. -/
def SearchClause (toLowerCase : String → String) (filters : Filters)
    (mention : Mention) : Prop :=
  filters.search = ""
    ∨ Contains (toLowerCase mention.content) (toLowerCase filters.search)
    ∨ ∃ a, mention.author = some a ∧ Contains (toLowerCase a) (toLowerCase filters.search)

/-! ## Sample records -/

/-- A mention with the given id, sentiment, time value and engagement. -/
def sample (id sentiment : String) (timestamp : Option Int)
    (engagement : Option Engagement) : Mention :=
  { id := id, brand := "Acme", source := "twitter", sentiment := sentiment,
    content := "Acme ships an update", author := none, timestamp := timestamp,
    engagement := engagement }

/-! ## The application state (`src/App.js`)

The asynchronous functions `fetchBrands` and `fetchMentions` are split at their `await`:
the part before it issues a request, recorded in the state as outstanding; the part
after it runs when the response arrives. Requests may complete in any order. -/

/-- A brand record of the brand list. -/
structure Brand where
  id : String
  name : String
  keywords : List String
  socialMediaHandles : List String
deriving DecidableEq

/-- The state of `App` (lines 13-16) together with the requests in flight.
`pendingMentions` holds the `brand` parameter of each outstanding `GET /mentions`;
`pendingBrands` holds, for each outstanding `GET /brands`, the value of `selectedBrand`
captured by the closure that issued it. -/
structure AppState where
  activeTab : String
  mentions : List Mention
  brands : List Brand
  selectedBrand : String
  pendingMentions : List String
  pendingBrands : List String
deriving DecidableEq

/-- The state at the first render (`useState` initial values, nothing in flight). -/
def initialAppState : AppState :=
  { activeTab := "dashboard", mentions := [], brands := [], selectedBrand := "",
    pendingMentions := [], pendingBrands := [] }

/-- The `newMention` socket handler (lines 22-24): `setMentions(prev => [newMention, ...prev])`. -/
def onNewMention (newMention : Mention) (s : AppState) : AppState :=
  { s with mentions := newMention :: s.mentions }

/-- `fetchBrands` up to its `await` (lines 33-35): the request is issued. -/
def fetchBrands (s : AppState) : AppState :=
  { s with pendingBrands := s.pendingBrands ++ [s.selectedBrand] }

/-- `fetchBrands` after its `await` (lines 36-39), for the response `data` and the
`selectedBrand` the closure captured. -/
def fetchBrandsResolved (captured : String) (data : List Brand) (s : AppState) : AppState :=
  let s1 := { s with brands := data }
  match data with
  | first :: _ => if !truthyString captured then { s1 with selectedBrand := first.name } else s1
  | [] => s1

/-- `fetchMentions(brand)` up to its `await` (lines 45-49): the request for `brand` is
issued. -/
def fetchMentions (brand : String) (s : AppState) : AppState :=
  { s with pendingMentions := s.pendingMentions ++ [brand] }

/-- `fetchMentions` after its `await` (line 50): `setMentions(response.data.mentions)`. -/
def fetchMentionsResolved (data : List Mention) (s : AppState) : AppState :=
  { s with mentions := data }

/-- `handleBrandChange` (lines 56-59). -/
def handleBrandChange (brand : String) (s : AppState) : AppState :=
  fetchMentions brand { s with selectedBrand := brand }

/-- `handleViewBrand` of `BrandManager` (lines 55-58), with `onBrandSelect` and
`onTabChange` bound to `setSelectedBrand` and `setActiveTab` (App.js lines 128-129). -/
def handleViewBrand (brand : Brand) (s : AppState) : AppState :=
  { s with selectedBrand := brand.name, activeTab := "mentions" }

/-- `handleAnalytics` of `BrandManager` (lines 109-112), bound in the same way. -/
def handleAnalytics (brand : Brand) (s : AppState) : AppState :=
  { s with selectedBrand := brand.name, activeTab := "analytics" }

/-- The body of the mount effect (lines 26-28): `fetchBrands(); fetchMentions();`, the
latter with its default argument `selectedBrand`. -/
def mountEffect (s : AppState) : AppState :=
  fetchMentions s.selectedBrand (fetchBrands s)

/-- The events that reach `App`. -/
inductive Event where
  | mount
  | newMention (mention : Mention)
  | brandsResponse (captured : String) (data : List Brand)
  | brandsError (captured : String)
  | mentionsResponse (brand : String) (data : List Mention)
  | mentionsError (brand : String)
  | selectChange (brand : String)
  | tabClick (tab : String)
  | viewBrand (brand : Brand)
  | analyticsBrand (brand : Brand)
  | brandsUpdate
  | refresh
deriving DecidableEq

/-- One event handled by `App`; `none` when the event cannot occur in the state (a
response without an outstanding request). -/
def step? (s : AppState) : Event → Option AppState
  | Event.mount => some (mountEffect s)
  | Event.newMention m => some (onNewMention m s)
  | Event.brandsResponse captured data =>
    if captured ∈ s.pendingBrands then
      some (fetchBrandsResolved captured data
        { s with pendingBrands := s.pendingBrands.erase captured })
    else none
  | Event.brandsError captured =>
    if captured ∈ s.pendingBrands then
      some { s with pendingBrands := s.pendingBrands.erase captured }
    else none
  | Event.mentionsResponse brand data =>
    if brand ∈ s.pendingMentions then
      some (fetchMentionsResolved data
        { s with pendingMentions := s.pendingMentions.erase brand })
    else none
  | Event.mentionsError brand =>
    if brand ∈ s.pendingMentions then
      some { s with pendingMentions := s.pendingMentions.erase brand }
    else none
  | Event.selectChange brand => some (handleBrandChange brand s)
  | Event.tabClick tab => some { s with activeTab := tab }
  | Event.viewBrand brand => some (handleViewBrand brand s)
  | Event.analyticsBrand brand => some (handleAnalytics brand s)
  | Event.brandsUpdate => some (fetchBrands s)
  | Event.refresh => some (fetchMentions s.selectedBrand s)

/-- A sequence of events handled one after the other. -/
def run? (s : AppState) : List Event → Option AppState
  | [] => some s
  | e :: es =>
    match step? s e with
    | some s1 => run? s1 es
    | none => none

/-- The ids of the mentions in the store, in order. -/
def storeIds (s : AppState) : List String := s.mentions.map (fun m => m.id)

/-- A sequence of events in which every refetch response carries pairwise distinct ids
and every pushed mention has an id that is not in the store when it arrives. -/
def freshIds (s : AppState) : List Event → Bool
  | [] => true
  | e :: es =>
    (match e with
      | Event.newMention m => decide (m.id ∉ storeIds s)
      | Event.mentionsResponse _ data => decide ((data.map (fun m => m.id)).Nodup)
      | _ => true)
    && (match step? s e with
      | some s1 => freshIds s1 es
      | none => true)

/-! ## Arrays as mutable objects

The pipeline of `MentionList` works on arrays, which JavaScript passes by reference.
An array store maps references to array contents; `filter` and the spread `[...a]`
allocate a new array, `sort` rewrites the array it is called on and returns it. -/

/-- The arrays allocated so far; a reference is an index into the list. -/
abbrev ArrayStore := List (List Mention)

/-- The content of the array behind a reference. -/
def readArray (store : ArrayStore) (ref : Nat) : List Mention := store.getD ref []

/-- Allocation of a new array with the given content. -/
def allocArray (store : ArrayStore) (content : List Mention) : Nat × ArrayStore :=
  (store.length, store ++ [content])

/-- `a.filter(callback)`: a new array, `a` is not written. -/
def arrayFilter (callback : Mention → Bool) (ref : Nat) (store : ArrayStore) :
    Nat × ArrayStore :=
  allocArray store ((readArray store ref).filter callback)

/-- `[...a]`: a new array with the elements of `a`. -/
def arraySpread (ref : Nat) (store : ArrayStore) : Nat × ArrayStore :=
  allocArray store (readArray store ref)

/-- `a.sort(comparefn)`: `a` itself is rewritten in sorted order and returned. -/
def arraySortInPlace (comparefn : Mention → Mention → Option Int) (ref : Nat)
    (store : ArrayStore) : Nat × ArrayStore :=
  (ref, store.set ref (arraySort comparefn (readArray store ref)))

/-- Lines 18-45 on the array store: `mentions.filter(...)`, then
`[...filteredMentions].sort(...)`. Returns the references of `filteredMentions` and
`sortedMentions` and the store afterwards. -/
def pipelineOnStore (toLowerCase : String → String) (filters : Filters) (sortBy : String)
    (mentionsRef : Nat) (store : ArrayStore) : Nat × Nat × ArrayStore :=
  let filtered := arrayFilter (filterPredicate toLowerCase filters) mentionsRef store
  let copy := arraySpread filtered.1 filtered.2
  let sorted := arraySortInPlace (compareFn sortBy) copy.1 copy.2
  (filtered.1, sorted.1, sorted.2)

/-! ## Selection and the detail modal (`MentionList.js`) -/

/-- The view-local state of `MentionList` (lines 7-15). -/
structure MentionListState where
  filters : Filters
  viewMode : String
  sortBy : String
  selectedMention : Option Mention
  loading : Bool
deriving DecidableEq

/-- The state of `MentionList` at its first render. -/
def initialMentionListState : MentionListState :=
  { filters := initialFilters, viewMode := "grid", sortBy := initialSortBy,
    selectedMention := none, loading := false }

/-- `setSelectedMention(mention)`, the `onClick` of a mention card (line 135). -/
def selectMention (mention : Mention) (st : MentionListState) : MentionListState :=
  { st with selectedMention := some mention }

/-- `setSelectedMention(null)`, the `onClose` of the detail modal (line 521). -/
def closeModal (st : MentionListState) : MentionListState :=
  { st with selectedMention := none }

/-- `setFilters(...)` (lines 371-398). -/
def setFilters (filters : Filters) (st : MentionListState) : MentionListState :=
  { st with filters := filters }

/-- `setSortBy(...)` (line 411). -/
def setSortBy (sortBy : String) (st : MentionListState) : MentionListState :=
  { st with sortBy := sortBy }

/-- The derived view rendered by `MentionList` for the `mentions` prop. -/
def derivedView (toLowerCase : String → String) (st : MentionListState)
    (mentions : List Mention) : List Mention :=
  sortedMentions toLowerCase st.filters st.sortBy mentions

/-- The result of `getSourceIcon` (lines 66-75). -/
structure SourceConfig where
  icon : String
  color : String
  name : String
deriving DecidableEq

/-- `getSourceIcon` (lines 66-75). -/
def getSourceIcon (source : String) : SourceConfig :=
  match source with
  | "twitter" => { icon := "🐦", color := "#1DA1F2", name := "Twitter" }
  | "facebook" => { icon := "📘", color := "#1877F2", name := "Facebook" }
  | "news" => { icon := "📰", color := "#FF6B6B", name := "News" }
  | "blog" => { icon := "📝", color := "#4ECDC4", name := "Blog" }
  | "forum" => { icon := "💬", color := "#45B7D1", name := "Forum" }
  | _ => { icon := "🌐", color := "#95A5A6", name := "Web" }

/-- The result of `getSentimentConfig` (lines 77-108). -/
structure SentimentConfig where
  color : String
  bgColor : String
  icon : String
  label : String
deriving DecidableEq

/-- `getSentimentConfig` (lines 77-108). -/
def getSentimentConfig (sentiment : String) : SentimentConfig :=
  match sentiment with
  | "positive" =>
    { color := "#10B981", bgColor := "rgba(16, 185, 129, 0.1)", icon := "😊",
      label := "Positive" }
  | "negative" =>
    { color := "#EF4444", bgColor := "rgba(239, 68, 68, 0.1)", icon := "😠",
      label := "Negative" }
  | "neutral" =>
    { color := "#F59E0B", bgColor := "rgba(245, 158, 11, 0.1)", icon := "😐",
      label := "Neutral" }
  | _ =>
    { color := "#6B7280", bgColor := "rgba(107, 114, 128, 0.1)", icon := "😶",
      label := "Unknown" }

/-- `author || fallback` for an author that is a string or absent: the fallback is
taken when the author is absent or the empty string. -/
def authorOr (author : Option String) (fallback : String) : String :=
  match author with
  | some a => if truthyString a then a else fallback
  | none => fallback

/-- What the detail modal shows of a mention (lines 230-335); the date, url and topic
parts are left out. -/
structure ModalView where
  sourceConfig : SourceConfig
  sentimentConfig : SentimentConfig
  content : String
  author : String
  engagementPoints : Nat
  engagementMetrics : Option (Nat × Nat × Nat)
deriving DecidableEq

/-- `MentionDetailModal` (lines 227-337): `null` when no mention is passed, the modal
for the mention otherwise. -/
def MentionDetailModal (mention : Option Mention) : Option ModalView :=
  match mention with
  | none => none
  | some m =>
    some
      { sourceConfig := getSourceIcon m.source,
        sentimentConfig := getSentimentConfig m.sentiment,
        content := m.content,
        author := authorOr m.author "Unknown",
        engagementPoints := getEngagementScore m.engagement,
        engagementMetrics :=
          m.engagement.map (fun e => (orZero e.likes, orZero e.shares, orZero e.comments)) }

/-- The modal rendered by `MentionList` (lines 518-522): `MentionDetailModal` applied to
the `selectedMention` state. -/
def renderedModal (st : MentionListState) : Option ModalView :=
  MentionDetailModal st.selectedMention

/-- A mention of the given brand. -/
def sampleOf (brand id : String) : Mention :=
  { id := id, brand := brand, source := "news", sentiment := "neutral",
    content := "About " ++ brand, author := some "Reporter", timestamp := some 10,
    engagement := none }

/-- A brand with the given name. -/
def sampleBrand (name : String) : Brand :=
  { id := "id-" ++ name, name := name, keywords := [], socialMediaHandles := [] }

/-! ## Author text and relative time shown by the views -/

/-- The author text of a mention card of `MentionList` (line 147):
`mention.author || 'Anonymous User'`. -/
def mentionCardAuthor (mention : Mention) : String :=
  authorOr mention.author "Anonymous User"

/-- The author text of a recent-mentions card of `Dashboard` (Dashboard.js line 487):
`mention.author || 'Anonymous'`. -/
def dashboardCardAuthor (mention : Mention) : String :=
  authorOr mention.author "Anonymous"

/-- `formatTimeAgo` (lines 114-124), for the time value `now` of `new Date()` and the
time value of `new Date(timestamp)`. `toLocaleDateString` is the library rendering of a
date. With an Invalid Date `diffInSeconds` is `NaN`, every comparison is false and the
last `return` is reached. The division by a positive literal rounds down, as
`Math.floor` does. -/
def formatTimeAgo (toLocaleDateString : Option Int → String) (now : Int)
    (timestamp : Option Int) : String :=
  match timestamp with
  | none => toLocaleDateString none
  | some time =>
    let diffInSeconds : Int := (now - time) / 1000
    if diffInSeconds < 60 then "Just now"
    else if diffInSeconds < 3600 then toString (diffInSeconds / 60) ++ "m ago"
    else if diffInSeconds < 86400 then toString (diffInSeconds / 3600) ++ "h ago"
    else if diffInSeconds < 604800 then toString (diffInSeconds / 86400) ++ "d ago"
    else toLocaleDateString (some time)

/-- A stand-in for `toLocaleDateString` used for evaluation. -/
def sampleLocaleDate (time : Option Int) : String :=
  match time with
  | some t => "date " ++ toString t
  | none => "Invalid Date"

/-! ## The brand manager (`src/components/BrandManager.js`) -/

/-- The `newBrand` form state (lines 8-12). -/
structure NewBrandForm where
  name : String
  keywords : String
  socialMediaHandles : String
deriving DecidableEq

/-- The state of `BrandManager` (lines 7-17) together with its effects on the outside:
the brand ids of the `DELETE` requests issued, the number of `onBrandsUpdate()` calls
and the alerts shown. -/
structure BrandManagerState where
  showAddForm : Bool
  newBrand : NewBrandForm
  loading : Bool
  activeBrand : Option Brand
  searchTerm : String
  editingBrand : Option Brand
  deleteConfirm : Option Brand
  deleteRequests : List String
  brandsUpdateCalls : Nat
  alerts : List String
deriving DecidableEq

/-- The state of `BrandManager` at its first render. -/
def initialBrandManagerState : BrandManagerState :=
  { showAddForm := false,
    newBrand := { name := "", keywords := "", socialMediaHandles := "" },
    loading := false, activeBrand := none, searchTerm := "", editingBrand := none,
    deleteConfirm := none, deleteRequests := [], brandsUpdateCalls := 0, alerts := [] }

/-- `handleDeleteBrand` up to its `await` (lines 86-96): nothing when no brand awaits
confirmation, otherwise `setLoading(true)` and the `DELETE` request for
`deleteConfirm._id`. -/
def handleDeleteBrand (st : BrandManagerState) : BrandManagerState :=
  match st.deleteConfirm with
  | none => st
  | some brand =>
    { st with loading := true, deleteRequests := st.deleteRequests ++ [brand.id] }

/-- `handleDeleteBrand` after a successful request (lines 97-99 and `finally`). -/
def handleDeleteBrandResolved (st : BrandManagerState) : BrandManagerState :=
  { st with
    deleteConfirm := none,
    brandsUpdateCalls := st.brandsUpdateCalls + 1,
    alerts := st.alerts ++ ["Brand deleted successfully!"],
    loading := false }

/-- `handleDeleteBrand` after a failed request (lines 100-105): the alert shows
`error.response?.data?.message || 'Error deleting brand'`. -/
def handleDeleteBrandRejected (message : Option String) (st : BrandManagerState) :
    BrandManagerState :=
  { st with
    alerts := st.alerts ++ [authorOr message "Error deleting brand"],
    loading := false }

/-- The code points that `String.prototype.trim` removes: the ECMAScript WhiteSpace and
LineTerminator characters. -/
def isWhiteSpace (c : Char) : Bool :=
  c.toNat == 0x9 || c.toNat == 0xA || c.toNat == 0xB || c.toNat == 0xC || c.toNat == 0xD
    || c.toNat == 0x20 || c.toNat == 0xA0 || c.toNat == 0x1680
    || (0x2000 ≤ c.toNat && c.toNat ≤ 0x200A)
    || c.toNat == 0x2028 || c.toNat == 0x2029 || c.toNat == 0x202F || c.toNat == 0x205F
    || c.toNat == 0x3000 || c.toNat == 0xFEFF

/-- `s.split(',')` on the characters of `s`: the pieces between the commas, at least
one piece. -/
def splitComma : List Char → List (List Char)
  | [] => [[]]
  | c :: cs =>
    if c = ',' then [] :: splitComma cs
    else
      match splitComma cs with
      | piece :: rest => (c :: piece) :: rest
      | [] => [[c]]

/-- `k.trim()` on the characters of `k`. -/
def trimChars (k : List Char) : List Char :=
  (k.dropWhile isWhiteSpace).rdropWhile isWhiteSpace

/-- `ks.join(', ')` on the characters of the entries. -/
def joinChars : List (List Char) → List Char
  | [] => []
  | [k] => k
  | k :: rest => k ++ ',' :: ' ' :: joinChars rest

/-- The parsing of a comma-separated field (lines 26-27, 327 and 344):
`value.split(',').map(k => k.trim()).filter(k => k)`. -/
def parseCommaList (value : String) : List String :=
  (((splitComma value.data).map trimChars).filter (fun k => !k.isEmpty)).map String.mk

/-- The rendering of a list in the edit form (lines 324 and 341): `ks.join(', ')`. -/
def joinCommaSpace (ks : List String) : String :=
  String.mk (joinChars (ks.map String.data))

/-- An entry as the parsing produces it: non-empty, without comma, without white space
at either end. -/
def CleanEntry (k : String) : Prop :=
  k ≠ "" ∧ ',' ∉ k.data
    ∧ (∀ c ∈ k.data.head?, isWhiteSpace c = false)
    ∧ (∀ c ∈ k.data.getLast?, isWhiteSpace c = false)

instance (k : String) : Decidable (CleanEntry k) := by
  unfold CleanEntry
  infer_instance

/-! ## Metrics of `Analytics` and `Dashboard` -/

/-- An item of the sentiment distribution returned by the analytics API. -/
structure SentimentItem where
  id : Option String
  count : Int
deriving DecidableEq

/-- `sentimentData.find(s => s._id === key)?.count || 0`. -/
def findCount (sentimentData : List SentimentItem) (key : String) : Int :=
  match sentimentData.find? (fun s => s.id == some key) with
  | some s => if s.count = 0 then 0 else s.count
  | none => 0

/-- `totalMentions > 0 ? (count / totalMentions * 100) : 0`, as an exact rational (the
value before `toFixed(1)`). -/
def percentage (count totalMentions : Int) : ℚ :=
  if totalMentions > 0 then (count : ℚ) / (totalMentions : ℚ) * 100 else 0

/-- `totalMentions` of `Analytics` (Analytics.js line 208):
`sentimentData.reduce((total, item) => total + item.count, 0)`. -/
def analyticsTotalMentions (sentimentData : List SentimentItem) : Int :=
  sentimentData.foldl (fun total item => total + item.count) 0

/-- The percentage of the given sentiment in `Analytics` (Analytics.js lines 209-214). -/
def analyticsPercentage (sentimentData : List SentimentItem) (key : String) : ℚ :=
  percentage (findCount sentimentData key) (analyticsTotalMentions sentimentData)

/-- `totalMentions` of `Dashboard` (Dashboard.js line 232): `mentions.length`. -/
def dashboardTotalMentions (mentions : List Mention) : Int := (mentions.length : Int)

/-- The percentage of the given sentiment in `Dashboard` (Dashboard.js lines 233-237):
the count comes from the sentiment distribution, the total from the `mentions` prop. -/
def dashboardPercentage (mentions : List Mention) (sentimentData : List SentimentItem)
    (key : String) : ℚ :=
  percentage (findCount sentimentData key) (dashboardTotalMentions mentions)

/-! ## `Array.prototype.sort` across engines

ECMAScript fixes the result of `sort` only when the comparator is a consistent
comparator for the elements: the result is then the stable sorted arrangement, which is
what `arraySort` computes. For any other comparator (one that returns `NaN`, or whose
ties are not transitive) the order is implementation-defined, and engines differ. The
definitions below state the requirement and give a second admissible implementation, a
top-down stable merge sort. -/

/-- The ECMAScript definition of a consistent comparator for the elements of `l`: the
result is never `NaN`, an element ties with itself, ties are symmetric, and ties,
"before" and "after" are each transitive. -/
def ConsistentOn {α : Type} (comparefn : α → α → Option Int) (l : List α) : Prop :=
  (∀ a ∈ l, ∀ b ∈ l, comparefn a b ≠ none)
    ∧ (∀ a ∈ l, SortCompare comparefn a a = 0)
    ∧ (∀ a ∈ l, ∀ b ∈ l, SortCompare comparefn a b = 0 → SortCompare comparefn b a = 0)
    ∧ (∀ a ∈ l, ∀ b ∈ l, ∀ c ∈ l, SortCompare comparefn a b = 0 →
        SortCompare comparefn b c = 0 → SortCompare comparefn a c = 0)
    ∧ (∀ a ∈ l, ∀ b ∈ l, ∀ c ∈ l, SortCompare comparefn a b < 0 →
        SortCompare comparefn b c < 0 → SortCompare comparefn a c < 0)
    ∧ (∀ a ∈ l, ∀ b ∈ l, ∀ c ∈ l, 0 < SortCompare comparefn a b →
        0 < SortCompare comparefn b c → 0 < SortCompare comparefn a c)

/-- What ECMAScript requires of an implementation of `Array.prototype.sort` on mentions:
the result is a rearrangement of the input, and for a consistent comparator it is the
stable sorted arrangement. -/
def ConformingSort
    (sort : (Mention → Mention → Option Int) → List Mention → List Mention) : Prop :=
  ∀ (comparefn : Mention → Mention → Option Int) (l : List Mention),
    (sort comparefn l).Perm l
      ∧ (ConsistentOn comparefn l → sort comparefn l = arraySort comparefn l)

/-- Stable merge of two runs: the elements at the front of the right run that have to
precede the head `x` of the left run (`SortCompare x y > 0`) are taken first, then `x`;
on a tie the left element goes first. -/
def mergeRuns {α : Type} (comparefn : α → α → Option Int) : List α → List α → List α
  | [], ys => ys
  | x :: xs, ys =>
    ys.takeWhile (fun y => decide (¬ SortCompare comparefn x y ≤ 0))
      ++ x :: mergeRuns comparefn xs
        (ys.dropWhile (fun y => decide (¬ SortCompare comparefn x y ≤ 0)))

/-- Top-down merge sort with a bound on the depth of the recursion: a list of fewer than
two elements is returned as it is, a longer one is cut in the middle, both halves are
sorted and the results merged. -/
def mergeSortDepth {α : Type} (comparefn : α → α → Option Int) : Nat → List α → List α
  | 0, l => l
  | depth + 1, l =>
    if l.length < 2 then l
    else
      mergeRuns comparefn
        (mergeSortDepth comparefn depth (l.take (l.length / 2)))
        (mergeSortDepth comparefn depth (l.drop (l.length / 2)))

/-- `Array.prototype.sort` as a stable merge sort; the length of the list bounds the
depth of the recursion. -/
def mergeSort {α : Type} (comparefn : α → α → Option Int) (l : List α) : List α :=
  mergeSortDepth comparefn l.length l

/-- The derived view of the pipeline (`sortedMentions`, line 29) for a given
implementation of `Array.prototype.sort`. -/
def sortedMentionsWith
    (sort : (Mention → Mention → Option Int) → List Mention → List Mention)
    (toLowerCase : String → String) (filters : Filters) (sortBy : String)
    (mentions : List Mention) : List Mention :=
  sort (compareFn sortBy) (filteredMentions toLowerCase filters mentions)

/-- Six mentions with the sentiments negative, unknown, positive, positive, negative,
negative, in this order. -/
def sixSentiments : List Mention :=
  [sample "0" "negative" (some 1) none, sample "1" "unknown" (some 1) none,
    sample "2" "positive" (some 1) none, sample "3" "positive" (some 1) none,
    sample "4" "negative" (some 1) none, sample "5" "negative" (some 1) none]

/-- Six mentions with the time values 1, Invalid Date, 3, 3, 1, 1, in this order. -/
def sixTimestamps : List Mention :=
  [sample "0" "neutral" (some 1) none, sample "1" "neutral" none none,
    sample "2" "neutral" (some 3) none, sample "3" "neutral" (some 3) none,
    sample "4" "neutral" (some 1) none, sample "5" "neutral" (some 1) none]

/-! ## Auxiliary facts -/

theorem truthyString_eq_false_iff (s : String) : truthyString s = false ↔ s = "" := by
  simp [truthyString]

theorem includes_iff (s t : String) : includes s t = true ↔ Contains s t := by
  unfold includes Contains
  rw [List.any_eq_true, List.infix_iff_prefix_suffix]
  constructor
  · rintro ⟨u, hu, hp⟩
    exact ⟨u, List.isPrefixOf_iff_prefix.1 hp, (List.mem_tails _ _).1 hu⟩
  · rintro ⟨u, hp, hu⟩
    exact ⟨u, (List.mem_tails _ _).2 hu, List.isPrefixOf_iff_prefix.2 hp⟩

theorem sentimentPredicate_iff (filters : Filters) (m : Mention) :
    sentimentPredicate filters m = true ↔ SentimentClause filters m := by
  simp [sentimentPredicate, SentimentClause, truthyString]

theorem sourcePredicate_iff (filters : Filters) (m : Mention) :
    sourcePredicate filters m = true ↔ SourceClause filters m := by
  simp [sourcePredicate, SourceClause, truthyString]

theorem truthy_authorIncludes_iff (toLowerCase : String → String) (filters : Filters)
    (m : Mention) :
    truthy (authorIncludes toLowerCase filters m) = true
      ↔ ∃ a, m.author = some a ∧ Contains (toLowerCase a) (toLowerCase filters.search) := by
  unfold authorIncludes truthy
  cases h : m.author with
  | none => simp
  | some a => simp [includes_iff]

theorem searchPredicate_iff_clause (toLowerCase : String → String) (filters : Filters)
    (m : Mention) :
    searchPredicate toLowerCase filters m = true ↔ SearchClause toLowerCase filters m := by
  unfold searchPredicate SearchClause
  rw [Bool.or_eq_true, Bool.or_eq_true, truthy_authorIncludes_iff, includes_iff]
  simp [truthyString, or_assoc]

theorem filterPredicate_iff (toLowerCase : String → String) (filters : Filters)
    (m : Mention) :
    filterPredicate toLowerCase filters m = true
      ↔ SentimentClause filters m ∧ SourceClause filters m
          ∧ SearchClause toLowerCase filters m := by
  unfold filterPredicate
  rw [Bool.and_eq_true, Bool.and_eq_true, sentimentPredicate_iff, sourcePredicate_iff,
    searchPredicate_iff_clause, and_assoc]

/-! ## The filter -/

/-- C1: the filtered list is a sublist of the collection (same relative order); each of
its mentions satisfies the three clauses, and each mention of the collection that is
left out fails one of them. -/
theorem filteredMentions_sound_complete (toLowerCase : String → String)
    (filters : Filters) (mentions : List Mention) :
    List.Sublist (filteredMentions toLowerCase filters mentions) mentions
      ∧ (∀ m ∈ filteredMentions toLowerCase filters mentions,
          SentimentClause filters m ∧ SourceClause filters m
            ∧ SearchClause toLowerCase filters m)
      ∧ (∀ m ∈ mentions, m ∉ filteredMentions toLowerCase filters mentions →
          ¬ SentimentClause filters m ∨ ¬ SourceClause filters m
            ∨ ¬ SearchClause toLowerCase filters m) := by
  refine ⟨List.filter_sublist _, ?_, ?_⟩
  · intro m hm
    exact (filterPredicate_iff toLowerCase filters m).1 (List.mem_filter.1 hm).2
  · intro m hm hnot
    have hp : ¬ filterPredicate toLowerCase filters m = true := fun h =>
      hnot (List.mem_filter.2 ⟨hm, h⟩)
    rw [filterPredicate_iff] at hp
    by_cases h1 : SentimentClause filters m
    · by_cases h2 : SourceClause filters m
      · exact Or.inr (Or.inr fun h3 => hp ⟨h1, h2, h3⟩)
      · exact Or.inr (Or.inl h2)
    · exact Or.inl h1

/-- C2: for a non-empty search string the search conjunct holds exactly when the
lower-cased content contains the lower-cased search string or the author is present
and its lower-casing contains it; a mention without author whose content does not
match fails it; and the outcome depends on the search string, the content and the
author only through their lower-casings. -/
theorem searchPredicate_nonempty_search (toLowerCase : String → String)
    (filters : Filters) (m : Mention) (hsearch : filters.search ≠ "") :
    (searchPredicate toLowerCase filters m = true
        ↔ Contains (toLowerCase m.content) (toLowerCase filters.search)
          ∨ ∃ a, m.author = some a
              ∧ Contains (toLowerCase a) (toLowerCase filters.search))
      ∧ (m.author = none →
          ¬ Contains (toLowerCase m.content) (toLowerCase filters.search) →
          searchPredicate toLowerCase filters m = false)
      ∧ (∀ (filters2 : Filters) (m2 : Mention), filters2.search ≠ "" →
          toLowerCase filters2.search = toLowerCase filters.search →
          toLowerCase m2.content = toLowerCase m.content →
          m2.author.map toLowerCase = m.author.map toLowerCase →
          searchPredicate toLowerCase filters2 m2 = searchPredicate toLowerCase filters m) := by
  have key : ∀ (f : Filters) (x : Mention), f.search ≠ "" →
      (searchPredicate toLowerCase f x = true
        ↔ Contains (toLowerCase x.content) (toLowerCase f.search)
          ∨ ∃ a, x.author = some a ∧ Contains (toLowerCase a) (toLowerCase f.search)) := by
    intro f x hf
    rw [searchPredicate_iff_clause]
    unfold SearchClause
    constructor
    · rintro (h | h)
      · exact absurd h hf
      · exact h
    · exact Or.inr
  refine ⟨key filters m hsearch, ?_, ?_⟩
  · intro hauthor hcontent
    rw [← Bool.not_eq_true, key filters m hsearch]
    rintro (h | ⟨a, ha, _⟩)
    · exact hcontent h
    · rw [hauthor] at ha
      exact Option.noConfusion ha
  · intro filters2 m2 h2 hs hc ha
    rw [Bool.eq_iff_iff, key filters2 m2 h2, key filters m hsearch, hs, hc]
    refine or_congr Iff.rfl ?_
    constructor
    · rintro ⟨a, hm2, hcont⟩
      rw [hm2] at ha
      cases hm : m.author with
      | none => rw [hm] at ha; exact Option.noConfusion ha
      | some b =>
        rw [hm] at ha
        simp only [Option.map_some', Option.some.injEq] at ha
        exact ⟨b, rfl, ha ▸ hcont⟩
    · rintro ⟨a, hm, hcont⟩
      rw [hm] at ha
      cases hm2 : m2.author with
      | none => rw [hm2] at ha; exact Option.noConfusion ha
      | some b =>
        rw [hm2] at ha
        simp only [Option.map_some', Option.some.injEq] at ha
        exact ⟨b, rfl, ha ▸ hcont⟩

/-- Witness of C2: the search string "ACME" matches the content "Acme ships an
update" of a mention without author, and "Rival" does not. -/
theorem searchPredicate_nonempty_search_witness :
    searchPredicate asciiLower { sentiment := "", source := "", search := "ACME" }
        (sample "m1" "positive" (some 1) none) = true
      ∧ searchPredicate asciiLower { sentiment := "", source := "", search := "Rival" }
        (sample "m1" "positive" (some 1) none) = false := by
  constructor
  · exact (searchPredicate_nonempty_search asciiLower
      { sentiment := "", source := "", search := "ACME" }
      (sample "m1" "positive" (some 1) none) (by decide)).1.2
      (Or.inl ((includes_iff _ _).1 (by decide)))
  · exact (searchPredicate_nonempty_search asciiLower
      { sentiment := "", source := "", search := "Rival" }
      (sample "m1" "positive" (some 1) none) (by decide)).2.1 rfl
      (fun h => absurd ((includes_iff _ _).2 h) (by decide))

/-- C3: with all three criteria empty the filtered list is the collection itself, same
elements, order and length; `clearFilters` installs exactly these criteria, as does the
initial state. -/
theorem filteredMentions_no_criteria (toLowerCase : String → String)
    (previous : Filters) (mentions : List Mention) :
    filteredMentions toLowerCase { sentiment := "", source := "", search := "" } mentions
        = mentions
      ∧ (filteredMentions toLowerCase
          { sentiment := "", source := "", search := "" } mentions).length = mentions.length
      ∧ clearFilters previous = { sentiment := "", source := "", search := "" }
      ∧ filteredMentions toLowerCase (clearFilters previous) mentions = mentions
      ∧ filteredMentions toLowerCase initialFilters mentions = mentions := by
  have h : filteredMentions toLowerCase
      { sentiment := "", source := "", search := "" } mentions = mentions := by
    unfold filteredMentions
    rw [List.filter_eq_self]
    intro m _
    simp [filterPredicate, sentimentPredicate, sourcePredicate, searchPredicate,
      truthyString]
  exact ⟨h, by rw [h], rfl, h, h⟩

/-! ## Facts about the stable sort -/

section SortFacts

variable {α : Type} (r : α → α → Prop) [DecidableRel r]

/-- Inserting into a list ordered by `r` keeps it ordered, when `r` is total and
transitive on the elements at hand. -/
theorem pairwise_orderedInsert_on (P : α → Prop)
    (htot : ∀ a b, P a → P b → r a b ∨ r b a)
    (htrans : ∀ a b c, P a → P b → P c → r a b → r b c → r a c)
    (a : α) (ha : P a) :
    ∀ l : List α, (∀ x ∈ l, P x) → l.Pairwise r → (l.orderedInsert r a).Pairwise r := by
  intro l
  induction l with
  | nil => intro _ _; simp
  | cons b l ih =>
    intro hl hs
    have hb : P b := hl b (List.mem_cons_self _ _)
    have hl2 : ∀ x ∈ l, P x := fun x hx => hl x (List.mem_cons_of_mem _ hx)
    rw [List.orderedInsert]
    split_ifs with h
    · refine List.pairwise_cons.2 ⟨?_, hs⟩
      intro c hc
      rcases List.mem_cons.1 hc with hcb | hcl
      · rw [hcb]; exact h
      · exact htrans a b c ha hb (hl2 c hcl) h (List.rel_of_pairwise_cons hs hcl)
    · have hba : r b a := (htot a b ha hb).resolve_left h
      refine List.pairwise_cons.2 ⟨?_, ih hl2 (List.Pairwise.of_cons hs)⟩
      intro c hc
      rcases (List.mem_orderedInsert r).1 hc with hca | hcl
      · rw [hca]; exact hba
      · exact List.rel_of_pairwise_cons hs hcl

/-- The insertion sort orders its input by `r`, when `r` is total and transitive on
the elements of the input. -/
theorem pairwise_insertionSort_on (P : α → Prop)
    (htot : ∀ a b, P a → P b → r a b ∨ r b a)
    (htrans : ∀ a b c, P a → P b → P c → r a b → r b c → r a c) :
    ∀ l : List α, (∀ x ∈ l, P x) → (l.insertionSort r).Pairwise r := by
  intro l
  induction l with
  | nil => intro _; simp
  | cons b l ih =>
    intro hl
    have hl2 : ∀ x ∈ l, P x := fun x hx => hl x (List.mem_cons_of_mem _ hx)
    rw [List.insertionSort]
    refine pairwise_orderedInsert_on r P htot htrans b (hl b (List.mem_cons_self _ _)) _ ?_
      (ih hl2)
    intro x hx
    exact hl2 x ((List.perm_insertionSort r l).mem_iff.1 hx)

/-- Inserting into a list whose neighbours are related by a total `r` keeps neighbours
related. -/
theorem chain_orderedInsert (htot : ∀ a b, r a b ∨ r b a) (a : α) :
    ∀ l : List α, l.Chain' r → (l.orderedInsert r a).Chain' r := by
  intro l
  induction l with
  | nil => intro _; simp
  | cons b l ih =>
    intro hc
    rw [List.orderedInsert]
    split_ifs with h
    · exact List.Chain'.cons h hc
    · have hba : r b a := (htot a b).resolve_left h
      refine List.Chain'.cons' (ih hc.tail) ?_
      intro y hy
      cases l with
      | nil =>
        simp only [List.orderedInsert, List.head?_cons, Option.mem_def,
          Option.some.injEq] at hy
        rw [← hy]; exact hba
      | cons c l =>
        rw [List.orderedInsert] at hy
        split_ifs at hy with h2
        · simp only [List.head?_cons, Option.mem_def, Option.some.injEq] at hy
          rw [← hy]; exact hba
        · simp only [List.head?_cons, Option.mem_def, Option.some.injEq] at hy
          rw [← hy]; exact List.Chain'.rel_head hc

/-- The output of the insertion sort has neighbours related by `r`, for total `r`. -/
theorem chain_insertionSort (htot : ∀ a b, r a b ∨ r b a) :
    ∀ l : List α, (l.insertionSort r).Chain' r := by
  intro l
  induction l with
  | nil => simp
  | cons b l ih =>
    rw [List.insertionSort]
    exact chain_orderedInsert r htot b _ ih

/-- A list whose neighbours are related by `r` is left as it is by the insertion sort. -/
theorem insertionSort_eq_of_chain : ∀ l : List α, l.Chain' r → l.insertionSort r = l := by
  intro l
  induction l with
  | nil => intro _; rfl
  | cons b l ih =>
    intro hc
    rw [List.insertionSort, ih hc.tail]
    cases l with
    | nil => rfl
    | cons c l =>
      rw [List.orderedInsert, if_pos (List.Chain'.rel_head hc)]

end SortFacts

theorem compareFn_default (sortBy : String) (a b : Mention) (h1 : sortBy ≠ "newest")
    (h2 : sortBy ≠ "oldest") (h3 : sortBy ≠ "engagement") (h4 : sortBy ≠ "sentiment") :
    compareFn sortBy a b = some 0 := by
  unfold compareFn
  split <;> first | rfl | contradiction

/-- The relation read by the sort is total: `SortCompare` of `compareFn` is
antisymmetric in sign for every sort key. -/
theorem sortCompare_total (sortBy : String) (a b : Mention) :
    SortCompare (compareFn sortBy) a b ≤ 0 ∨ SortCompare (compareFn sortBy) b a ≤ 0 := by
  by_cases h1 : sortBy = "newest"
  · subst h1
    cases ha : a.timestamp <;> cases hb : b.timestamp <;>
      simp [SortCompare, compareFn, jsSub, ha, hb]
    omega
  by_cases h2 : sortBy = "oldest"
  · subst h2
    cases ha : a.timestamp <;> cases hb : b.timestamp <;>
      simp [SortCompare, compareFn, jsSub, ha, hb]
    omega
  by_cases h3 : sortBy = "engagement"
  · subst h3
    simp only [SortCompare, compareFn]
    omega
  by_cases h4 : sortBy = "sentiment"
  · subst h4
    cases ha : sentimentOrder a.sentiment <;> cases hb : sentimentOrder b.sentiment <;>
      simp [SortCompare, compareFn, jsSub, ha, hb]
    omega
  · simp [SortCompare, compareFn_default sortBy _ _ h1 h2 h3 h4]

theorem mem_sortedMentions (toLowerCase : String → String) (filters : Filters)
    (sortBy : String) (mentions : List Mention) (m : Mention) :
    m ∈ sortedMentions toLowerCase filters sortBy mentions
      ↔ m ∈ filteredMentions toLowerCase filters mentions :=
  (List.perm_insertionSort _ _).mem_iff

theorem sortCompare_newest (a b : Mention) (x y : Int) (ha : a.timestamp = some x)
    (hb : b.timestamp = some y) : SortCompare (compareFn "newest") a b = y - x := by
  simp [SortCompare, compareFn, jsSub, ha, hb]

theorem sortCompare_oldest (a b : Mention) (x y : Int) (ha : a.timestamp = some x)
    (hb : b.timestamp = some y) : SortCompare (compareFn "oldest") a b = x - y := by
  simp [SortCompare, compareFn, jsSub, ha, hb]

theorem sortCompare_engagement (a b : Mention) :
    SortCompare (compareFn "engagement") a b
      = (getEngagementScore b.engagement : Int) - (getEngagementScore a.engagement : Int) := by
  simp [SortCompare, compareFn, getEngagementScore]

/-- Two arrangements of the same elements, one ordered by non-increasing key and the
other by strictly decreasing key, coincide. -/
theorem eq_of_perm_of_key_sorted {α : Type} (key : α → Int) (l₁ l₂ : List α)
    (hp : l₁.Perm l₂) (h₁ : l₁.Pairwise (fun a b => key b ≤ key a))
    (h₂ : l₂.Pairwise (fun a b => key b < key a)) : l₁ = l₂ := by
  have hne₂ : l₂.Pairwise (fun a b => key a ≠ key b) :=
    h₂.imp (fun h => (ne_of_lt h).symm)
  have hne₁ : l₁.Pairwise (fun a b => key a ≠ key b) :=
    (hp.pairwise_iff (fun {a b} (h : key a ≠ key b) => h.symm)).2 hne₂
  have hlt₁ : l₁.Pairwise (fun a b => key b < key a) :=
    (h₁.and hne₁).imp (fun h => lt_of_le_of_ne h.1 h.2.symm)
  haveI : IsAntisymm α (fun a b => key b < key a) :=
    ⟨fun a b hab hba => absurd hab (not_lt_of_gt hba)⟩
  exact List.eq_of_perm_of_sorted hp hlt₁ h₂

/-- Under `newest` the view of mentions with well-formed timestamps is ordered by
non-increasing time value. -/
theorem newest_pairwise (toLowerCase : String → String) (filters : Filters)
    (mentions : List Mention)
    (hwf : ∀ m ∈ filteredMentions toLowerCase filters mentions, m.timestamp ≠ none) :
    (sortedMentions toLowerCase filters "newest" mentions).Pairwise
      (fun a b => ∃ x y, a.timestamp = some x ∧ b.timestamp = some y ∧ y ≤ x) := by
  have hP : ∀ m : Mention, m.timestamp ≠ none → ∃ x, m.timestamp = some x := fun m h =>
    Option.ne_none_iff_exists'.1 h
  have hs := pairwise_insertionSort_on
    (fun a b => SortCompare (compareFn "newest") a b ≤ 0) (fun m => m.timestamp ≠ none)
    (fun a b _ _ => sortCompare_total "newest" a b)
    (fun a b c ha hb hc hab hbc => by
      obtain ⟨x, hx⟩ := hP a ha
      obtain ⟨y, hy⟩ := hP b hb
      obtain ⟨z, hz⟩ := hP c hc
      have hab2 : SortCompare (compareFn "newest") a b ≤ 0 := hab
      have hbc2 : SortCompare (compareFn "newest") b c ≤ 0 := hbc
      rw [sortCompare_newest a b x y hx hy] at hab2
      rw [sortCompare_newest b c y z hy hz] at hbc2
      rw [sortCompare_newest a c x z hx hz]
      omega)
    (filteredMentions toLowerCase filters mentions) hwf
  refine List.Pairwise.imp_of_mem ?_ hs
  intro a b ha hb hab
  obtain ⟨x, hx⟩ := hP a (hwf a ((mem_sortedMentions _ _ _ _ a).1 ha))
  obtain ⟨y, hy⟩ := hP b (hwf b ((mem_sortedMentions _ _ _ _ b).1 hb))
  have hab2 : SortCompare (compareFn "newest") a b ≤ 0 := hab
  rw [sortCompare_newest a b x y hx hy] at hab2
  exact ⟨x, y, hx, hy, by omega⟩

/-- Under `oldest` the view of mentions with well-formed timestamps is ordered by
non-decreasing time value. -/
theorem oldest_pairwise (toLowerCase : String → String) (filters : Filters)
    (mentions : List Mention)
    (hwf : ∀ m ∈ filteredMentions toLowerCase filters mentions, m.timestamp ≠ none) :
    (sortedMentions toLowerCase filters "oldest" mentions).Pairwise
      (fun a b => ∃ x y, a.timestamp = some x ∧ b.timestamp = some y ∧ x ≤ y) := by
  have hP : ∀ m : Mention, m.timestamp ≠ none → ∃ x, m.timestamp = some x := fun m h =>
    Option.ne_none_iff_exists'.1 h
  have hs := pairwise_insertionSort_on
    (fun a b => SortCompare (compareFn "oldest") a b ≤ 0) (fun m => m.timestamp ≠ none)
    (fun a b _ _ => sortCompare_total "oldest" a b)
    (fun a b c ha hb hc hab hbc => by
      obtain ⟨x, hx⟩ := hP a ha
      obtain ⟨y, hy⟩ := hP b hb
      obtain ⟨z, hz⟩ := hP c hc
      have hab2 : SortCompare (compareFn "oldest") a b ≤ 0 := hab
      have hbc2 : SortCompare (compareFn "oldest") b c ≤ 0 := hbc
      rw [sortCompare_oldest a b x y hx hy] at hab2
      rw [sortCompare_oldest b c y z hy hz] at hbc2
      rw [sortCompare_oldest a c x z hx hz]
      omega)
    (filteredMentions toLowerCase filters mentions) hwf
  refine List.Pairwise.imp_of_mem ?_ hs
  intro a b ha hb hab
  obtain ⟨x, hx⟩ := hP a (hwf a ((mem_sortedMentions _ _ _ _ a).1 ha))
  obtain ⟨y, hy⟩ := hP b (hwf b ((mem_sortedMentions _ _ _ _ b).1 hb))
  have hab2 : SortCompare (compareFn "oldest") a b ≤ 0 := hab
  rw [sortCompare_oldest a b x y hx hy] at hab2
  exact ⟨x, y, hx, hy, by omega⟩

/-! ## The sort keys -/

/-- C4: on a collection whose timestamps are all well formed, the view under `newest`
is ordered by non-increasing timestamp and the view under `oldest` by non-decreasing
timestamp; `newest` is the initial sort key. -/
theorem sortedMentions_newest_oldest_ordered (toLowerCase : String → String)
    (filters : Filters) (mentions : List Mention)
    (hwf : ∀ m ∈ mentions, m.timestamp ≠ none) :
    (sortedMentions toLowerCase filters "newest" mentions).Pairwise
        (fun a b => ∃ x y, a.timestamp = some x ∧ b.timestamp = some y ∧ y ≤ x)
      ∧ (sortedMentions toLowerCase filters "oldest" mentions).Pairwise
        (fun a b => ∃ x y, a.timestamp = some x ∧ b.timestamp = some y ∧ x ≤ y)
      ∧ initialSortBy = "newest" := by
  have hwf2 : ∀ m ∈ filteredMentions toLowerCase filters mentions, m.timestamp ≠ none :=
    fun m hm => hwf m (List.mem_filter.1 hm).1
  exact ⟨newest_pairwise toLowerCase filters mentions hwf2,
    oldest_pairwise toLowerCase filters mentions hwf2, rfl⟩

/-- Witness of C4: three mentions with time values 1, 3, 2. -/
theorem sortedMentions_newest_oldest_ordered_witness :
    (sortedMentions asciiLower initialFilters "newest"
        [sample "a" "positive" (some 1) none, sample "b" "neutral" (some 3) none,
          sample "c" "negative" (some 2) none]).Pairwise
        (fun a b => ∃ x y, a.timestamp = some x ∧ b.timestamp = some y ∧ y ≤ x)
      ∧ (sortedMentions asciiLower initialFilters "oldest"
        [sample "a" "positive" (some 1) none, sample "b" "neutral" (some 3) none,
          sample "c" "negative" (some 2) none]).Pairwise
        (fun a b => ∃ x y, a.timestamp = some x ∧ b.timestamp = some y ∧ x ≤ y)
      ∧ initialSortBy = "newest" :=
  sortedMentions_newest_oldest_ordered asciiLower initialFilters
    [sample "a" "positive" (some 1) none, sample "b" "neutral" (some 3) none,
      sample "c" "negative" (some 2) none] (by decide)

/-- C5, as stated, fails: a mention with an Invalid Date next to one with a valid date
has no equal timestamps, yet `newest` and `oldest` both leave the two in input order,
so the `newest` view is not the reverse of the `oldest` view. -/
theorem newest_not_reverse_oldest_invalid_date :
    (filteredMentions asciiLower initialFilters
        [sample "bad" "positive" none none, sample "ok" "positive" (some 5) none]).Pairwise
        (fun a b => a.timestamp ≠ b.timestamp)
      ∧ sortedMentions asciiLower initialFilters "newest"
          [sample "bad" "positive" none none, sample "ok" "positive" (some 5) none]
        ≠ (sortedMentions asciiLower initialFilters "oldest"
          [sample "bad" "positive" none none, sample "ok" "positive" (some 5) none]).reverse := by
  decide

/-- C5 (amended): when every filtered mention has a well-formed timestamp and no two
filtered mentions have equal timestamps, the view under `newest` is exactly the reverse
of the view under `oldest`. -/
theorem newest_eq_reverse_oldest (toLowerCase : String → String) (filters : Filters)
    (mentions : List Mention)
    (hwf : ∀ m ∈ filteredMentions toLowerCase filters mentions, m.timestamp ≠ none)
    (hdistinct : (filteredMentions toLowerCase filters mentions).Pairwise
      (fun a b => a.timestamp ≠ b.timestamp)) :
    sortedMentions toLowerCase filters "newest" mentions
      = (sortedMentions toLowerCase filters "oldest" mentions).reverse := by
  have hpn : (sortedMentions toLowerCase filters "newest" mentions).Perm
      (filteredMentions toLowerCase filters mentions) := List.perm_insertionSort _ _
  have hpo : (sortedMentions toLowerCase filters "oldest" mentions).Perm
      (filteredMentions toLowerCase filters mentions) := List.perm_insertionSort _ _
  have hdo : (sortedMentions toLowerCase filters "oldest" mentions).Pairwise
      (fun a b => a.timestamp ≠ b.timestamp) :=
    (hpo.pairwise_iff (fun {a b} (h : a.timestamp ≠ b.timestamp) => h.symm)).2 hdistinct
  refine eq_of_perm_of_key_sorted (fun m => m.timestamp.getD 0) _ _
    (hpn.trans (hpo.symm.trans (List.reverse_perm _).symm)) ?_ ?_
  · refine (newest_pairwise toLowerCase filters mentions hwf).imp ?_
    rintro a b ⟨x, y, hx, hy, hxy⟩
    simpa [hx, hy] using hxy
  · rw [List.pairwise_reverse]
    refine ((oldest_pairwise toLowerCase filters mentions hwf).and hdo).imp ?_
    rintro a b ⟨⟨x, y, hx, hy, hxy⟩, hne⟩
    have hne2 : x ≠ y := fun h => hne (by rw [hx, hy, h])
    simp only [hx, hy, Option.getD_some]
    omega

/-- Witness of C5 (amended): three mentions with time values 1, 3, 2. -/
theorem newest_eq_reverse_oldest_witness :
    sortedMentions asciiLower initialFilters "newest"
        [sample "a" "positive" (some 1) none, sample "b" "neutral" (some 3) none,
          sample "c" "negative" (some 2) none]
      = (sortedMentions asciiLower initialFilters "oldest"
        [sample "a" "positive" (some 1) none, sample "b" "neutral" (some 3) none,
          sample "c" "negative" (some 2) none]).reverse :=
  newest_eq_reverse_oldest asciiLower initialFilters
    [sample "a" "positive" (some 1) none, sample "b" "neutral" (some 3) none,
      sample "c" "negative" (some 2) none] (by decide) (by decide)

/-- C6: the view under `engagement` is ordered by non-increasing
`likes + shares + comments`, an absent engagement object and an absent counter counting
as 0; three filtered mentions with engagement {5, 0, 0}, {0, 3, 1} and none come out in
the order score 5, score 4, score 0, whatever their order in the collection. -/
theorem sortedMentions_engagement_ordered (toLowerCase : String → String)
    (filters : Filters) (mentions : List Mention) :
    (sortedMentions toLowerCase filters "engagement" mentions).Pairwise
        (fun x y => getEngagementScore y.engagement ≤ getEngagementScore x.engagement)
      ∧ getEngagementScore none = 0
      ∧ (∀ likes shares comments : Option Nat,
          getEngagementScore (some { likes := likes, shares := shares, comments := comments })
            = likes.getD 0 + shares.getD 0 + comments.getD 0)
      ∧ (∀ a b c : Mention,
          a.engagement = some { likes := some 5, shares := some 0, comments := some 0 } →
          b.engagement = some { likes := some 0, shares := some 3, comments := some 1 } →
          c.engagement = none →
          (filteredMentions toLowerCase filters mentions).Perm [a, b, c] →
          sortedMentions toLowerCase filters "engagement" mentions = [a, b, c]) := by
  have hs : (sortedMentions toLowerCase filters "engagement" mentions).Pairwise
      (fun x y => getEngagementScore y.engagement ≤ getEngagementScore x.engagement) := by
    have h := pairwise_insertionSort_on
      (fun a b => SortCompare (compareFn "engagement") a b ≤ 0) (fun _ => True)
      (fun a b _ _ => sortCompare_total "engagement" a b)
      (fun a b c _ _ _ hab hbc => by
        have hab2 : SortCompare (compareFn "engagement") a b ≤ 0 := hab
        have hbc2 : SortCompare (compareFn "engagement") b c ≤ 0 := hbc
        show SortCompare (compareFn "engagement") a c ≤ 0
        rw [sortCompare_engagement] at hab2 hbc2 ⊢
        omega)
      (filteredMentions toLowerCase filters mentions) (fun _ _ => trivial)
    refine List.Pairwise.imp ?_ h
    intro a b hab
    have hab2 : SortCompare (compareFn "engagement") a b ≤ 0 := hab
    rw [sortCompare_engagement] at hab2
    omega
  refine ⟨hs, rfl, ?_, ?_⟩
  · intro likes shares comments
    cases likes <;> cases shares <;> cases comments <;> rfl
  · intro a b c ha hb hc hperm
    have hp : (sortedMentions toLowerCase filters "engagement" mentions).Perm [a, b, c] :=
      (List.perm_insertionSort _ _).trans hperm
    refine eq_of_perm_of_key_sorted (fun m => (getEngagementScore m.engagement : Int)) _ _
      hp (hs.imp (fun h => Int.ofNat_le.2 h)) ?_
    simp [ha, hb, hc, getEngagementScore, orZero]

/-- Witness of C6: the three mentions given in the order none, {0, 3, 1}, {5, 0, 0}. -/
theorem sortedMentions_engagement_ordered_witness :
    sortedMentions asciiLower initialFilters "engagement"
        [sample "c" "neutral" (some 1) none,
          sample "b" "neutral" (some 2)
            (some { likes := some 0, shares := some 3, comments := some 1 }),
          sample "a" "neutral" (some 3)
            (some { likes := some 5, shares := some 0, comments := some 0 })]
      = [sample "a" "neutral" (some 3)
            (some { likes := some 5, shares := some 0, comments := some 0 }),
          sample "b" "neutral" (some 2)
            (some { likes := some 0, shares := some 3, comments := some 1 }),
          sample "c" "neutral" (some 1) none] :=
  (sortedMentions_engagement_ordered asciiLower initialFilters
    [sample "c" "neutral" (some 1) none,
      sample "b" "neutral" (some 2)
        (some { likes := some 0, shares := some 3, comments := some 1 }),
      sample "a" "neutral" (some 3)
        (some { likes := some 5, shares := some 0, comments := some 0 })]).2.2.2
    _ _ _ rfl rfl rfl (by decide)

/-- C7, the code at the failing input: for a mention with sentiment `unknown` the
comparator under `sentiment` yields `NaN` against every other mention, the sort reads
that as a tie, and the arrangement unknown, positive, neutral, negative (as well as
unknown, positive) is returned as given, with the unknown mention first. -/
theorem sentiment_sort_keeps_unknown_first :
    compareFn "sentiment" (sample "u" "unknown" (some 1) none)
        (sample "p" "positive" (some 2) none) = none
      ∧ compareFn "sentiment" (sample "p" "positive" (some 2) none)
        (sample "u" "unknown" (some 1) none) = none
      ∧ sortedMentions asciiLower initialFilters "sentiment"
          [sample "u" "unknown" (some 1) none, sample "p" "positive" (some 2) none]
        = [sample "u" "unknown" (some 1) none, sample "p" "positive" (some 2) none]
      ∧ sortedMentions asciiLower initialFilters "sentiment"
          [sample "u" "unknown" (some 1) none, sample "p" "positive" (some 2) none,
            sample "n" "neutral" (some 3) none, sample "g" "negative" (some 4) none]
        = [sample "u" "unknown" (some 1) none, sample "p" "positive" (some 2) none,
            sample "n" "neutral" (some 3) none, sample "g" "negative" (some 4) none] := by
  decide

/-- C8, the code at the failing input: under `sentiment` the relation read by the sort
is not transitive. A negative mention ties with an unknown one, the unknown one ties
with a positive one, yet the negative mention must follow the positive one. -/
theorem sentiment_comparator_not_transitive :
    SortCompare (compareFn "sentiment") (sample "g" "negative" (some 1) none)
        (sample "u" "unknown" (some 2) none) = 0
      ∧ SortCompare (compareFn "sentiment") (sample "u" "unknown" (some 2) none)
        (sample "p" "positive" (some 3) none) = 0
      ∧ SortCompare (compareFn "sentiment") (sample "g" "negative" (some 1) none)
        (sample "p" "positive" (some 3) none) = 2 := by
  decide

/-- C10: when exactly one mention of the collection satisfies the filter, the view is
the one-element list holding it, for every value of the sort key. -/
theorem sortedMentions_single_match (toLowerCase : String → String) (filters : Filters)
    (sortBy : String) (mentions : List Mention) (m : Mention) (hm : m ∈ mentions)
    (hmatch : filterPredicate toLowerCase filters m = true)
    (hone : mentions.countP (filterPredicate toLowerCase filters) = 1) :
    sortedMentions toLowerCase filters sortBy mentions = [m] := by
  have hlen : (filteredMentions toLowerCase filters mentions).length = 1 := by
    unfold filteredMentions
    rw [← List.countP_eq_length_filter]
    exact hone
  have hmem : m ∈ filteredMentions toLowerCase filters mentions :=
    List.mem_filter.2 ⟨hm, hmatch⟩
  obtain ⟨x, hx⟩ := List.length_eq_one.1 hlen
  have hxm : m = x := by
    rw [hx] at hmem
    exact List.mem_singleton.1 hmem
  unfold sortedMentions arraySort
  rw [hx, hxm]
  rfl

/-- Witness of C10: timestamps 1 < 2 < 3, criteria {sentiment: positive} matched by the
middle mention only, and a sort key outside the four recognised ones. -/
theorem sortedMentions_single_match_witness :
    sortedMentions asciiLower { sentiment := "positive", source := "", search := "" }
        "relevance"
        [sample "t1" "negative" (some 1) none, sample "t2" "positive" (some 2) none,
          sample "t3" "neutral" (some 3) none]
      = [sample "t2" "positive" (some 2) none] :=
  sortedMentions_single_match asciiLower
    { sentiment := "positive", source := "", search := "" } "relevance"
    [sample "t1" "negative" (some 1) none, sample "t2" "positive" (some 2) none,
      sample "t3" "neutral" (some 3) none]
    (sample "t2" "positive" (some 2) none) (by decide) (by decide) (by decide)

/-! ## The live feed store -/

theorem fetchBrandsResolved_mentions (captured : String) (data : List Brand)
    (s : AppState) : (fetchBrandsResolved captured data s).mentions = s.mentions := by
  unfold fetchBrandsResolved
  cases data with
  | nil => rfl
  | cons first rest =>
    simp only
    split_ifs <;> rfl

/-- Every event other than a pushed mention or a completed refetch leaves the store as
it is. -/
theorem step_mentions (s s1 : AppState) (e : Event) (h : step? s e = some s1) :
    s1.mentions =
      match e with
      | Event.newMention m => m :: s.mentions
      | Event.mentionsResponse _ data => data
      | _ => s.mentions := by
  cases e <;> simp only [step?] at h
  case mount => cases h; rfl
  case newMention m => cases h; rfl
  case brandsResponse captured data =>
    split_ifs at h
    cases h
    exact fetchBrandsResolved_mentions _ _ _
  case brandsError captured =>
    split_ifs at h
    cases h; rfl
  case mentionsResponse brand data =>
    split_ifs at h
    cases h; rfl
  case mentionsError brand =>
    split_ifs at h
    cases h; rfl
  case selectChange brand => cases h; rfl
  case tabClick tab => cases h; rfl
  case viewBrand brand => cases h; rfl
  case analyticsBrand brand => cases h; rfl
  case brandsUpdate => cases h; rfl
  case refresh => cases h; rfl

/-- C11: the `newMention` handler yields the incoming mention followed by the previous
collection, unchanged and in order; the length grows by one and nothing else in the
state changes. No condition on the id of the incoming mention is involved. -/
theorem onNewMention_prepends (newMention : Mention) (s : AppState) :
    step? s (Event.newMention newMention) = some (onNewMention newMention s)
      ∧ (onNewMention newMention s).mentions = newMention :: s.mentions
      ∧ (onNewMention newMention s).mentions.head? = some newMention
      ∧ (onNewMention newMention s).mentions.tail = s.mentions
      ∧ (onNewMention newMention s).mentions.length = s.mentions.length + 1
      ∧ (onNewMention newMention s).selectedBrand = s.selectedBrand
      ∧ (onNewMention newMention s).brands = s.brands
      ∧ (onNewMention newMention s).pendingMentions = s.pendingMentions :=
  ⟨rfl, rfl, rfl, rfl, rfl, rfl, rfl, rfl⟩

/-- C12: a pushed mention followed by the completion of an outstanding refetch that
returns `data` leaves the store equal to `data`, in that order; so when `data` holds no
mention with the id of the pushed one, the pushed mention is not in the store. -/
theorem prepend_then_refetch (s : AppState) (m : Mention) (brand : String)
    (data : List Mention) (hpending : brand ∈ s.pendingMentions) :
    (fetchMentionsResolved data (onNewMention m s)).mentions = data
      ∧ ∃ s1, run? s [Event.newMention m, Event.mentionsResponse brand data] = some s1
          ∧ s1.mentions = data
          ∧ ((∀ x ∈ data, x.id ≠ m.id) → m ∉ s1.mentions) := by
  refine ⟨rfl, ?_⟩
  refine ⟨fetchMentionsResolved data
    { onNewMention m s with pendingMentions := s.pendingMentions.erase brand }, ?_, rfl, ?_⟩
  · simp [run?, step?, onNewMention, hpending]
  · intro hids hm
    exact hids m hm rfl

/-- Witness of C12: a push into a store with a refetch for Acme outstanding, then the
response. -/
theorem prepend_then_refetch_witness :
    ∃ s1, run? (fetchMentions "Acme" initialAppState)
        [Event.newMention (sampleOf "Acme" "pushed"),
          Event.mentionsResponse "Acme" [sampleOf "Acme" "a1", sampleOf "Acme" "a2"]]
          = some s1
      ∧ s1.mentions = [sampleOf "Acme" "a1", sampleOf "Acme" "a2"]
      ∧ ((∀ x ∈ [sampleOf "Acme" "a1", sampleOf "Acme" "a2"],
            x.id ≠ (sampleOf "Acme" "pushed").id)
          → sampleOf "Acme" "pushed" ∉ s1.mentions) :=
  (prepend_then_refetch (fetchMentions "Acme" initialAppState) (sampleOf "Acme" "pushed")
    "Acme" [sampleOf "Acme" "a1", sampleOf "Acme" "a2"] (by decide)).2

/-- C13, as stated, fails: a pushed mention whose id is already in the store is put in
front of the existing entry, which stays; the store then holds the id twice. -/
theorem push_duplicate_id :
    (storeIds { initialAppState with mentions := [sampleOf "Acme" "m1"] }).Nodup
      ∧ (run? { initialAppState with mentions := [sampleOf "Acme" "m1"] }
          [Event.newMention { sampleOf "Acme" "m1" with content := "edited" }]).map
          (fun s => s.mentions)
        = some [{ sampleOf "Acme" "m1" with content := "edited" }, sampleOf "Acme" "m1"]
      ∧ ¬ (storeIds (onNewMention { sampleOf "Acme" "m1" with content := "edited" }
          { initialAppState with mentions := [sampleOf "Acme" "m1"] })).Nodup := by
  decide

/-- C13 (amended): from a store with pairwise distinct ids, every sequence of events in
which each refetch response carries pairwise distinct ids and each pushed mention has an
id not yet in the store leaves the ids pairwise distinct; a pushed mention whose id is
already in the store is added in front and the existing entry is kept. -/
theorem storeIds_nodup_of_freshIds (s s1 : AppState) (events : List Event)
    (hs : (storeIds s).Nodup) (hfresh : freshIds s events = true)
    (hrun : run? s events = some s1) :
    (storeIds s1).Nodup
      ∧ ∀ m : Mention, m.id ∈ storeIds s1 →
          (onNewMention m s1).mentions = m :: s1.mentions
            ∧ ¬ (storeIds (onNewMention m s1)).Nodup := by
  constructor
  · induction events generalizing s with
    | nil =>
      simp only [run?, Option.some.injEq] at hrun
      rw [← hrun]; exact hs
    | cons e es ih =>
      simp only [run?] at hrun
      cases hstep : step? s e with
      | none => rw [hstep] at hrun; exact Option.noConfusion hrun
      | some s2 =>
        rw [hstep] at hrun
        simp only [freshIds, hstep, Bool.and_eq_true] at hfresh
        refine ih s2 ?_ hfresh.2 hrun
        have hm := step_mentions s s2 e hstep
        unfold storeIds
        cases e <;> simp only at hm <;> rw [hm]
        case newMention m =>
          have h1 := hfresh.1
          simp only [decide_eq_true_eq] at h1
          exact List.nodup_cons.2 ⟨h1, hs⟩
        case mentionsResponse brand data =>
          have h1 := hfresh.1
          simp only [decide_eq_true_eq] at h1
          exact h1
        all_goals exact hs
  · intro m hm
    refine ⟨rfl, ?_⟩
    intro hnodup
    exact (List.nodup_cons.1 hnodup).1 hm

/-- Witness of C13 (amended): a refetch with two ids followed by a push of a third. -/
theorem storeIds_nodup_of_freshIds_witness :
    (storeIds
        { fetchMentions "Acme" initialAppState with
          mentions := [sampleOf "Acme" "a3", sampleOf "Acme" "a1", sampleOf "Acme" "a2"],
          pendingMentions := [] }).Nodup :=
  (storeIds_nodup_of_freshIds (fetchMentions "Acme" initialAppState)
    { fetchMentions "Acme" initialAppState with
      mentions := [sampleOf "Acme" "a3", sampleOf "Acme" "a1", sampleOf "Acme" "a2"],
      pendingMentions := [] }
    [Event.mentionsResponse "Acme" [sampleOf "Acme" "a1", sampleOf "Acme" "a2"],
      Event.newMention (sampleOf "Acme" "a3")]
    (by decide) (by decide) (by decide)).1

/-- C14, as stated, fails: the brand is switched to Acme and then to Globex while the
refetch for Acme is outstanding; when the response for Acme completes it replaces the
(empty) store although Globex is selected. -/
theorem stale_response_overwrites_store :
    (run? initialAppState [Event.selectChange "Acme", Event.selectChange "Globex"]).map
        (fun s => (s.selectedBrand, s.mentions, s.pendingMentions))
        = some ("Globex", [], ["Acme", "Globex"])
      ∧ (run? initialAppState
          [Event.selectChange "Acme", Event.selectChange "Globex",
            Event.mentionsResponse "Acme" [sampleOf "Acme" "a1"]]).map
          (fun s => (s.selectedBrand, s.mentions, s.pendingMentions))
        = some ("Globex", [sampleOf "Acme" "a1"], ["Globex"])
      ∧ (sampleOf "Acme" "a1").brand ≠ "Globex" := by
  decide

/-- C14 (amended): there is no stale-response guard. After a switch to `brandA` and then
to `brandB`, the completion of the refetch for `brandA` installs its mentions as the
store while `brandB` stays selected; the completion handler installs every response,
whatever brand is selected. -/
theorem stale_response_is_installed (s : AppState) (brandA brandB : String)
    (data : List Mention) :
    (∃ s1, run? s [Event.selectChange brandA, Event.selectChange brandB,
          Event.mentionsResponse brandA data] = some s1
        ∧ s1.mentions = data ∧ s1.selectedBrand = brandB)
      ∧ (fetchMentionsResolved data s).mentions = data
      ∧ (fetchMentionsResolved data s).selectedBrand = s.selectedBrand := by
  refine ⟨?_, rfl, rfl⟩
  refine ⟨fetchMentionsResolved data
    { handleBrandChange brandB (handleBrandChange brandA s) with
      pendingMentions :=
        (handleBrandChange brandB (handleBrandChange brandA s)).pendingMentions.erase
          brandA }, ?_, rfl, rfl⟩
  simp [run?, step?, handleBrandChange, fetchMentions]

/-- C15, as stated, fails: after `handleBrandChange` the store still holds the mentions
of the previous brand. -/
theorem handleBrandChange_keeps_store :
    (handleBrandChange "Globex"
        { initialAppState with
          selectedBrand := "Acme",
          mentions := [sampleOf "Acme" "a1"] }).mentions
      = [sampleOf "Acme" "a1"]
      ∧ (handleBrandChange "Globex"
        { initialAppState with
          selectedBrand := "Acme",
          mentions := [sampleOf "Acme" "a1"] }).mentions ≠ [] := by
  decide

/-- C15 (amended): `handleBrandChange` does not clear the store. Immediately after it
the mention collection is the one held before, the new brand is selected and a refetch
for it is outstanding; the collection is replaced when that refetch completes. -/
theorem handleBrandChange_store_unchanged (brand : String) (s : AppState)
    (data : List Mention) :
    (handleBrandChange brand s).mentions = s.mentions
      ∧ (handleBrandChange brand s).selectedBrand = brand
      ∧ (handleBrandChange brand s).pendingMentions = s.pendingMentions ++ [brand]
      ∧ step? s (Event.selectChange brand) = some (handleBrandChange brand s)
      ∧ ∃ s1, run? s [Event.selectChange brand, Event.mentionsResponse brand data] = some s1
          ∧ s1.mentions = data ∧ s1.selectedBrand = brand := by
  refine ⟨rfl, rfl, rfl, rfl, ?_⟩
  refine ⟨fetchMentionsResolved data
    { handleBrandChange brand s with
      pendingMentions := (handleBrandChange brand s).pendingMentions.erase brand },
    ?_, rfl, rfl⟩
  simp [run?, step?, handleBrandChange, fetchMentions]

/-- C16, the code at the failing inputs: the View and Analytics actions of the brand
manager select Globex without issuing a mention request (the store keeps the mentions of
Acme), and the automatic selection after the brand list has loaded leaves only the
request for the empty brand issued at mount; `handleBrandChange` does issue the
request. -/
theorem brand_select_without_refetch :
    (handleViewBrand (sampleBrand "Globex")
        { initialAppState with
          selectedBrand := "Acme",
          mentions := [sampleOf "Acme" "a1"] })
      = { initialAppState with
          selectedBrand := "Globex", activeTab := "mentions",
          mentions := [sampleOf "Acme" "a1"], pendingMentions := [] }
      ∧ (handleAnalytics (sampleBrand "Globex")
        { initialAppState with
          selectedBrand := "Acme",
          mentions := [sampleOf "Acme" "a1"] })
      = { initialAppState with
          selectedBrand := "Globex", activeTab := "analytics",
          mentions := [sampleOf "Acme" "a1"], pendingMentions := [] }
      ∧ (run? initialAppState
          [Event.mount, Event.brandsResponse "" [sampleBrand "Acme"]]).map
          (fun s => (s.selectedBrand, s.pendingMentions))
        = some ("Acme", [""])
      ∧ (handleBrandChange "Globex"
        { initialAppState with
          selectedBrand := "Acme",
          mentions := [sampleOf "Acme" "a1"] }).pendingMentions = ["Globex"] := by
  decide

/-- C17, as stated, fails: with Acme selected and a store of Acme mentions, a pushed
mention of Globex is put at the head of the store. -/
theorem push_of_other_brand_enters_store :
    (run? { initialAppState with
          selectedBrand := "Acme",
          mentions := [sampleOf "Acme" "a1"] }
        [Event.newMention (sampleOf "Globex" "g1")]).map
        (fun s => (s.selectedBrand, s.mentions))
      = some ("Acme", [sampleOf "Globex" "g1", sampleOf "Acme" "a1"])
      ∧ (sampleOf "Globex" "g1").brand ≠ "Acme" := by
  decide

/-- C17 (amended): when a refetch response holds only mentions of the brand it was
requested for, then right after the completion of a refetch requested for the selected
brand every mention in the store has the selected brand; a pushed mention is put at the
head of the store whatever its brand. -/
theorem store_brand_after_refetch (s : AppState) (brand : String) (data : List Mention)
    (hdata : ∀ m ∈ data, m.brand = brand) (hselected : brand = s.selectedBrand)
    (hpending : brand ∈ s.pendingMentions) :
    (∃ s1, step? s (Event.mentionsResponse brand data) = some s1
        ∧ ∀ m ∈ s1.mentions, m.brand = s1.selectedBrand)
      ∧ ∀ pushed : Mention, (onNewMention pushed s).mentions = pushed :: s.mentions := by
  refine ⟨?_, fun _ => rfl⟩
  refine ⟨fetchMentionsResolved data
    { s with pendingMentions := s.pendingMentions.erase brand }, ?_, ?_⟩
  · simp [step?, hpending]
  · intro m hm
    rw [hdata m hm, hselected]
    rfl

/-- Witness of C17 (amended): Acme is selected and its refetch completes. -/
theorem store_brand_after_refetch_witness :
    (∃ s1, step? (handleBrandChange "Acme" initialAppState)
          (Event.mentionsResponse "Acme" [sampleOf "Acme" "a1", sampleOf "Acme" "a2"])
          = some s1
        ∧ ∀ m ∈ s1.mentions, m.brand = s1.selectedBrand)
      ∧ ∀ pushed : Mention,
          (onNewMention pushed (handleBrandChange "Acme" initialAppState)).mentions
            = pushed :: (handleBrandChange "Acme" initialAppState).mentions :=
  store_brand_after_refetch (handleBrandChange "Acme" initialAppState) "Acme"
    [sampleOf "Acme" "a1", sampleOf "Acme" "a2"] (by decide) (by decide) (by decide)

/-! ## The pipeline on the array store -/

theorem readArray_append_lt (store extra : ArrayStore) (ref : Nat)
    (h : ref < store.length) : readArray (store ++ extra) ref = readArray store ref := by
  unfold readArray
  rw [List.getD_eq_getElem?_getD, List.getD_eq_getElem?_getD, List.getElem?_append_left h]

theorem readArray_append_length (store : ArrayStore) (content : List Mention) :
    readArray (store ++ [content]) store.length = content := by
  unfold readArray
  rw [List.getD_eq_getElem?_getD]
  simp

theorem readArray_set_ne (store : ArrayStore) (ref other : Nat) (content : List Mention)
    (h : ref ≠ other) : readArray (store.set ref content) other = readArray store other := by
  unfold readArray
  rw [List.getD_eq_getElem?_getD, List.getD_eq_getElem?_getD, List.getElem?_set_ne h]

theorem readArray_set_eq (store : ArrayStore) (ref : Nat) (content : List Mention)
    (h : ref < store.length) : readArray (store.set ref content) ref = content := by
  unfold readArray
  rw [List.getD_eq_getElem?_getD]
  simp [h]

/-- C18: computing the derived view leaves the array passed in (and every other array
that existed before) with the same elements in the same order; `filteredMentions` and
`sortedMentions` are new arrays, distinct from the input and from each other, holding
the filtered list and the derived view. -/
theorem pipelineOnStore_frame (toLowerCase : String → String) (filters : Filters)
    (sortBy : String) (mentionsRef : Nat) (store : ArrayStore)
    (href : mentionsRef < store.length) :
    readArray (pipelineOnStore toLowerCase filters sortBy mentionsRef store).2.2 mentionsRef
        = readArray store mentionsRef
      ∧ (∀ ref, ref < store.length →
          readArray (pipelineOnStore toLowerCase filters sortBy mentionsRef store).2.2 ref
            = readArray store ref)
      ∧ (pipelineOnStore toLowerCase filters sortBy mentionsRef store).1 ≠ mentionsRef
      ∧ (pipelineOnStore toLowerCase filters sortBy mentionsRef store).2.1 ≠ mentionsRef
      ∧ (pipelineOnStore toLowerCase filters sortBy mentionsRef store).2.1
          ≠ (pipelineOnStore toLowerCase filters sortBy mentionsRef store).1
      ∧ readArray (pipelineOnStore toLowerCase filters sortBy mentionsRef store).2.2
          (pipelineOnStore toLowerCase filters sortBy mentionsRef store).1
          = filteredMentions toLowerCase filters (readArray store mentionsRef)
      ∧ readArray (pipelineOnStore toLowerCase filters sortBy mentionsRef store).2.2
          (pipelineOnStore toLowerCase filters sortBy mentionsRef store).2.1
          = sortedMentions toLowerCase filters sortBy (readArray store mentionsRef) := by
  have hcopy : readArray
      (store ++ [filteredMentions toLowerCase filters (readArray store mentionsRef)]
        ++ [filteredMentions toLowerCase filters (readArray store mentionsRef)])
      (store.length + 1)
      = filteredMentions toLowerCase filters (readArray store mentionsRef) := by
    have h := readArray_append_length
      (store ++ [filteredMentions toLowerCase filters (readArray store mentionsRef)])
      (filteredMentions toLowerCase filters (readArray store mentionsRef))
    simpa using h
  have hfinal : (pipelineOnStore toLowerCase filters sortBy mentionsRef store)
      = (store.length, store.length + 1,
          (store ++ [filteredMentions toLowerCase filters (readArray store mentionsRef)]
            ++ [filteredMentions toLowerCase filters (readArray store mentionsRef)]).set
            (store.length + 1)
            (sortedMentions toLowerCase filters sortBy (readArray store mentionsRef))) := by
    simp only [pipelineOnStore, arrayFilter, arraySpread, arraySortInPlace, allocArray,
      List.length_append, List.length_singleton, readArray_append_length]
    unfold filteredMentions at hcopy
    rw [hcopy]
    rfl
  have hold : ∀ ref, ref < store.length →
      readArray (pipelineOnStore toLowerCase filters sortBy mentionsRef store).2.2 ref
        = readArray store ref := by
    intro ref h
    rw [hfinal]
    simp only
    rw [readArray_set_ne _ _ _ _ (by omega), List.append_assoc, readArray_append_lt _ _ _ h]
  refine ⟨hold mentionsRef href, hold, ?_, ?_, ?_, ?_, ?_⟩
  · rw [hfinal]; simp only; omega
  · rw [hfinal]; simp only; omega
  · rw [hfinal]; simp only; omega
  · rw [hfinal]
    simp only
    rw [readArray_set_ne _ _ _ _ (by omega),
      readArray_append_lt _ _ _ (by simp), readArray_append_length]
  · rw [hfinal]
    simp only
    rw [readArray_set_eq _ _ _ (by simp)]

/-- Witness of C18: the collection is the only array of the store. -/
theorem pipelineOnStore_frame_witness :
    readArray (pipelineOnStore asciiLower initialFilters "newest" 0
        [[sample "a" "positive" (some 1) none, sample "b" "neutral" (some 3) none]]).2.2 0
      = [sample "a" "positive" (some 1) none, sample "b" "neutral" (some 3) none]
      ∧ readArray (pipelineOnStore asciiLower initialFilters "newest" 0
        [[sample "a" "positive" (some 1) none, sample "b" "neutral" (some 3) none]]).2.2
          (pipelineOnStore asciiLower initialFilters "newest" 0
            [[sample "a" "positive" (some 1) none, sample "b" "neutral" (some 3) none]]).2.1
      = [sample "b" "neutral" (some 3) none, sample "a" "positive" (some 1) none] := by
  have h := pipelineOnStore_frame asciiLower initialFilters "newest" 0
    [[sample "a" "positive" (some 1) none, sample "b" "neutral" (some 3) none]] (by decide)
  refine ⟨h.1, ?_⟩
  rw [h.2.2.2.2.2.2]
  decide

/-! ## Selection and the detail modal -/

/-- C19: closing the modal yields the no-selection state from every selection state;
that state is the initial one, closing twice is closing once, and selecting a mention
(in the view or not) and then closing returns to the initial state. -/
theorem closeModal_clears_selection (st : MentionListState) (m : Mention) :
    (closeModal st).selectedMention = none
      ∧ (closeModal st).selectedMention = initialMentionListState.selectedMention
      ∧ closeModal (closeModal st) = closeModal st
      ∧ (closeModal (selectMention m st)).selectedMention
          = initialMentionListState.selectedMention
      ∧ closeModal (selectMention m st) = closeModal st
      ∧ closeModal (selectMention m initialMentionListState) = initialMentionListState
      ∧ closeModal initialMentionListState = initialMentionListState
      ∧ renderedModal (closeModal st) = none :=
  ⟨rfl, rfl, rfl, rfl, rfl, rfl, rfl, rfl⟩

/-- C20, as stated, fails: a mention is selected from the view; a filter change then
excludes it from the view (and so does a collection without it), yet the modal still
shows its record. -/
theorem modal_shown_for_mention_outside_view :
    sample "p1" "positive" (some 1) none
        ∈ derivedView asciiLower initialMentionListState
            [sample "p1" "positive" (some 1) none]
      ∧ sample "p1" "positive" (some 1) none
        ∉ derivedView asciiLower
            (setFilters { sentiment := "negative", source := "", search := "" }
              (selectMention (sample "p1" "positive" (some 1) none)
                initialMentionListState))
            [sample "p1" "positive" (some 1) none]
      ∧ sample "p1" "positive" (some 1) none
        ∉ derivedView asciiLower
            (selectMention (sample "p1" "positive" (some 1) none) initialMentionListState)
            []
      ∧ renderedModal
          (setFilters { sentiment := "negative", source := "", search := "" }
            (selectMention (sample "p1" "positive" (some 1) none)
              initialMentionListState))
        = MentionDetailModal (some (sample "p1" "positive" (some 1) none))
      ∧ (MentionDetailModal (some (sample "p1" "positive" (some 1) none))).map
          (fun v => (v.content, v.author))
        = some ("Acme ships an update", "Unknown") := by
  decide

/-- C20 (amended): the modal renders nothing exactly when no mention is selected; for a
selected mention it shows that mention's record, whether or not the mention is in the
current derived view, and a change of filters or sort key keeps the selection. -/
theorem modal_shown_iff_selected (st : MentionListState) (m : Mention)
    (filters : Filters) (sortBy : String) :
    (renderedModal st = none ↔ st.selectedMention = none)
      ∧ (∃ v, renderedModal (selectMention m st) = some v
          ∧ v.content = m.content
          ∧ v.author = authorOr m.author "Unknown"
          ∧ v.engagementPoints = getEngagementScore m.engagement
          ∧ v.sourceConfig = getSourceIcon m.source
          ∧ v.sentimentConfig = getSentimentConfig m.sentiment)
      ∧ renderedModal (setFilters filters st) = renderedModal st
      ∧ renderedModal (setSortBy sortBy st) = renderedModal st := by
  refine ⟨?_, ⟨_, rfl, rfl, rfl, rfl, rfl, rfl⟩, rfl, rfl⟩
  unfold renderedModal MentionDetailModal
  cases st.selectedMention <;> simp

/-! ## Engagement score, author text, confirmation of a delete -/

/-- C21: `getEngagementScore` is `likes + shares + comments` with an absent engagement
object and each absent counter read as 0; the result is a non-negative integer, it is 0
exactly when every counter that is present is 0, and the `engagement` comparator
computes the same score inline, its result being the difference of the two scores. -/
theorem getEngagementScore_spec (engagement : Option Engagement) (a b : Mention) :
    getEngagementScore none = 0
      ∧ (∀ likes shares comments : Option Nat,
          getEngagementScore (some { likes := likes, shares := shares, comments := comments })
            = likes.getD 0 + shares.getD 0 + comments.getD 0)
      ∧ (0 : Int) ≤ (getEngagementScore engagement : Int)
      ∧ (getEngagementScore engagement = 0
          ↔ ∀ e, engagement = some e →
              (∀ n, e.likes = some n → n = 0) ∧ (∀ n, e.shares = some n → n = 0)
                ∧ (∀ n, e.comments = some n → n = 0))
      ∧ compareFn "engagement" a b
          = some ((getEngagementScore b.engagement : Int)
              - (getEngagementScore a.engagement : Int)) := by
  refine ⟨rfl, ?_, Int.ofNat_nonneg _, ?_, rfl⟩
  · intro likes shares comments
    cases likes <;> cases shares <;> cases comments <;> rfl
  · cases engagement with
    | none => simp [getEngagementScore, orZero]
    | some e =>
      obtain ⟨likes, shares, comments⟩ := e
      cases likes <;> cases shares <;> cases comments <;>
        simp [getEngagementScore, orZero, and_assoc]

/-- C22, as stated, fails: for a mention without author the mention card shows
"Anonymous User" and the detail modal shows "Unknown"; only the Dashboard card shows
"Anonymous". -/
theorem author_fallback_differs :
    mentionCardAuthor (sample "m1" "positive" (some 1) none) = "Anonymous User"
      ∧ (MentionDetailModal (some (sample "m1" "positive" (some 1) none))).map
          (fun v => v.author) = some "Unknown"
      ∧ dashboardCardAuthor (sample "m1" "positive" (some 1) none) = "Anonymous"
      ∧ mentionCardAuthor (sample "m1" "positive" (some 1) none) ≠ "Anonymous"
      ∧ (MentionDetailModal (some (sample "m1" "positive" (some 1) none))).map
          (fun v => v.author) ≠ some "Anonymous" := by
  decide

/-- C22 (amended): for a mention whose author is absent or empty the author text is
"Anonymous User" on the mention card, "Unknown" in the detail modal and "Anonymous" on
the Dashboard card; for a non-empty author the author itself is shown at all three
places. -/
theorem author_text_shown (m : Mention) :
    ((m.author = none ∨ m.author = some "") →
        mentionCardAuthor m = "Anonymous User"
          ∧ (MentionDetailModal (some m)).map (fun v => v.author) = some "Unknown"
          ∧ dashboardCardAuthor m = "Anonymous")
      ∧ (∀ a, m.author = some a → a ≠ "" →
          mentionCardAuthor m = a
            ∧ (MentionDetailModal (some m)).map (fun v => v.author) = some a
            ∧ dashboardCardAuthor m = a) := by
  constructor
  · rintro (h | h) <;>
      simp [mentionCardAuthor, dashboardCardAuthor, MentionDetailModal, authorOr, h,
        truthyString]
  · intro a h ha
    simp [mentionCardAuthor, dashboardCardAuthor, MentionDetailModal, authorOr, h,
      truthyString, ha]

/-- Witness of C22 (amended): a mention without author and one written by "Reporter". -/
theorem author_text_shown_witness :
    (mentionCardAuthor (sample "m1" "positive" (some 1) none) = "Anonymous User"
        ∧ (MentionDetailModal (some (sample "m1" "positive" (some 1) none))).map
            (fun v => v.author) = some "Unknown"
        ∧ dashboardCardAuthor (sample "m1" "positive" (some 1) none) = "Anonymous")
      ∧ (mentionCardAuthor (sampleOf "Acme" "a1") = "Reporter"
        ∧ (MentionDetailModal (some (sampleOf "Acme" "a1"))).map (fun v => v.author)
            = some "Reporter"
        ∧ dashboardCardAuthor (sampleOf "Acme" "a1") = "Reporter") :=
  ⟨(author_text_shown (sample "m1" "positive" (some 1) none)).1 (Or.inl rfl),
    (author_text_shown (sampleOf "Acme" "a1")).2 "Reporter" rfl (by decide)⟩

/-- C23: without a brand awaiting confirmation `handleDeleteBrand` issues no request and
leaves the state as it is; with a brand awaiting confirmation it issues exactly one
request, for that brand's id; a failure leaves the confirmation set and a success
clears it. -/
theorem handleDeleteBrand_confirmation (st : BrandManagerState) (brand : Brand)
    (message : Option String) :
    (st.deleteConfirm = none → handleDeleteBrand st = st)
      ∧ (st.deleteConfirm = some brand →
          (handleDeleteBrand st).deleteRequests = st.deleteRequests ++ [brand.id]
            ∧ (handleDeleteBrand st).deleteConfirm = some brand)
      ∧ ((handleDeleteBrand st).deleteRequests ≠ st.deleteRequests →
          st.deleteConfirm ≠ none)
      ∧ (handleDeleteBrandRejected message st).deleteConfirm = st.deleteConfirm
      ∧ (handleDeleteBrandRejected message st).deleteRequests = st.deleteRequests
      ∧ (handleDeleteBrandResolved st).deleteConfirm = none := by
  refine ⟨?_, ?_, ?_, rfl, rfl, rfl⟩
  · intro h
    simp [handleDeleteBrand, h]
  · intro h
    simp [handleDeleteBrand, h]
  · intro hne hnone
    apply hne
    simp [handleDeleteBrand, hnone]

/-- Witness of C23: no confirmation pending, and the brand Acme pending. -/
theorem handleDeleteBrand_confirmation_witness :
    handleDeleteBrand initialBrandManagerState = initialBrandManagerState
      ∧ (handleDeleteBrand
          { initialBrandManagerState with deleteConfirm := some (sampleBrand "Acme") }
          ).deleteRequests = ["id-Acme"] :=
  ⟨(handleDeleteBrand_confirmation initialBrandManagerState (sampleBrand "Acme") none).1 rfl,
    ((handleDeleteBrand_confirmation
      { initialBrandManagerState with deleteConfirm := some (sampleBrand "Acme") }
      (sampleBrand "Acme") none).2.1 rfl).1⟩

/-! ## Counts, unknown sort keys, relative time -/

/-- C24: the derived view is a permutation of the filtered list, so the number of
mentions shown equals the number of filtered mentions, which is at most the size of the
collection. -/
theorem sortedMentions_perm_filtered (toLowerCase : String → String) (filters : Filters)
    (sortBy : String) (mentions : List Mention) :
    (sortedMentions toLowerCase filters sortBy mentions).Perm
        (filteredMentions toLowerCase filters mentions)
      ∧ (sortedMentions toLowerCase filters sortBy mentions).length
          = (filteredMentions toLowerCase filters mentions).length
      ∧ (filteredMentions toLowerCase filters mentions).length ≤ mentions.length := by
  have hp : (sortedMentions toLowerCase filters sortBy mentions).Perm
      (filteredMentions toLowerCase filters mentions) := List.perm_insertionSort _ _
  exact ⟨hp, hp.length_eq, List.length_filter_le _ _⟩

/-- C25: for a sort key other than the four recognised ones the comparator returns 0
for every pair and the derived view is the filtered list in collection order. -/
theorem sortedMentions_unknown_key (toLowerCase : String → String) (filters : Filters)
    (sortBy : String) (mentions : List Mention) (h1 : sortBy ≠ "newest")
    (h2 : sortBy ≠ "oldest") (h3 : sortBy ≠ "engagement") (h4 : sortBy ≠ "sentiment") :
    (∀ a b : Mention, compareFn sortBy a b = some 0)
      ∧ sortedMentions toLowerCase filters sortBy mentions
          = filteredMentions toLowerCase filters mentions := by
  have hzero : ∀ a b : Mention, compareFn sortBy a b = some 0 := fun a b =>
    compareFn_default sortBy a b h1 h2 h3 h4
  refine ⟨hzero, ?_⟩
  refine insertionSort_eq_of_chain _ _ (List.Pairwise.chain' ?_)
  refine List.pairwise_of_forall ?_
  intro a b
  simp [SortCompare, hzero a b]

/-- Witness of C25: the key "relevance" on three mentions in the order 2, 3, 1. -/
theorem sortedMentions_unknown_key_witness :
    sortedMentions asciiLower initialFilters "relevance"
        [sample "b" "neutral" (some 2) none, sample "c" "negative" (some 3) none,
          sample "a" "positive" (some 1) none]
      = filteredMentions asciiLower initialFilters
        [sample "b" "neutral" (some 2) none, sample "c" "negative" (some 3) none,
          sample "a" "positive" (some 1) none] :=
  (sortedMentions_unknown_key asciiLower initialFilters "relevance"
    [sample "b" "neutral" (some 2) none, sample "c" "negative" (some 3) none,
      sample "a" "positive" (some 1) none]
    (by decide) (by decide) (by decide) (by decide)).2

/-- C26: with `d` the whole seconds elapsed, `formatTimeAgo` returns "Just now" for
`d < 60` (future timestamps included), the whole minutes (1 to 59) followed by "m ago"
for `60 ≤ d < 3600`, the whole hours (1 to 23) followed by "h ago" for
`3600 ≤ d < 86400`, the whole days (1 to 6) followed by "d ago" for
`86400 ≤ d < 604800`, and the locale date otherwise. -/
theorem formatTimeAgo_piecewise (toLocaleDateString : Option Int → String)
    (now time : Int) :
    ((now - time) / 1000 < 60 →
        formatTimeAgo toLocaleDateString now (some time) = "Just now")
      ∧ (60 ≤ (now - time) / 1000 → (now - time) / 1000 < 3600 →
          formatTimeAgo toLocaleDateString now (some time)
              = toString ((now - time) / 1000 / 60) ++ "m ago"
            ∧ 1 ≤ (now - time) / 1000 / 60 ∧ (now - time) / 1000 / 60 ≤ 59)
      ∧ (3600 ≤ (now - time) / 1000 → (now - time) / 1000 < 86400 →
          formatTimeAgo toLocaleDateString now (some time)
              = toString ((now - time) / 1000 / 3600) ++ "h ago"
            ∧ 1 ≤ (now - time) / 1000 / 3600 ∧ (now - time) / 1000 / 3600 ≤ 23)
      ∧ (86400 ≤ (now - time) / 1000 → (now - time) / 1000 < 604800 →
          formatTimeAgo toLocaleDateString now (some time)
              = toString ((now - time) / 1000 / 86400) ++ "d ago"
            ∧ 1 ≤ (now - time) / 1000 / 86400 ∧ (now - time) / 1000 / 86400 ≤ 6)
      ∧ (604800 ≤ (now - time) / 1000 →
          formatTimeAgo toLocaleDateString now (some time)
            = toLocaleDateString (some time))
      ∧ formatTimeAgo toLocaleDateString now none = toLocaleDateString none := by
  refine ⟨?_, ?_, ?_, ?_, ?_, rfl⟩
  · intro h
    simp [formatTimeAgo, h]
  · intro h1 h2
    refine ⟨?_, by omega, by omega⟩
    simp [formatTimeAgo, not_lt.2 h1, h2]
  · intro h1 h2
    refine ⟨?_, by omega, by omega⟩
    have e1 : ¬ (now - time) / 1000 < 60 := by omega
    have e2 : ¬ (now - time) / 1000 < 3600 := by omega
    simp [formatTimeAgo, e1, e2, h2]
  · intro h1 h2
    refine ⟨?_, by omega, by omega⟩
    have e1 : ¬ (now - time) / 1000 < 60 := by omega
    have e2 : ¬ (now - time) / 1000 < 3600 := by omega
    have e3 : ¬ (now - time) / 1000 < 86400 := by omega
    simp [formatTimeAgo, e1, e2, e3, h2]
  · intro h1
    have e1 : ¬ (now - time) / 1000 < 60 := by omega
    have e2 : ¬ (now - time) / 1000 < 3600 := by omega
    have e3 : ¬ (now - time) / 1000 < 86400 := by omega
    have e4 : ¬ (now - time) / 1000 < 604800 := by omega
    simp [formatTimeAgo, e1, e2, e3, e4]

/-- Witness of C26: 900 seconds elapsed give "15m ago", a timestamp in the future gives
"Just now". -/
theorem formatTimeAgo_piecewise_witness :
    formatTimeAgo sampleLocaleDate 1000000 (some 100000) = "15m ago"
      ∧ formatTimeAgo sampleLocaleDate 1000000 (some 5000000) = "Just now" :=
  ⟨((formatTimeAgo_piecewise sampleLocaleDate 1000000 100000).2.1
      (by decide) (by decide)).1,
    (formatTimeAgo_piecewise sampleLocaleDate 1000000 5000000).1 (by decide)⟩

/-! ## Comma-separated fields -/

theorem splitComma_ne_nil (l : List Char) : splitComma l ≠ [] := by
  cases l with
  | nil => simp [splitComma]
  | cons c cs =>
    unfold splitComma
    split_ifs
    · simp
    · split <;> simp

theorem not_mem_of_mem_splitComma :
    ∀ (l : List Char) (p : List Char), p ∈ splitComma l → ',' ∉ p := by
  intro l
  induction l with
  | nil =>
    intro p hp
    simp only [splitComma, List.mem_singleton] at hp
    simp [hp]
  | cons c cs ih =>
    intro p hp
    unfold splitComma at hp
    split_ifs at hp with hc
    · rcases List.mem_cons.1 hp with h | h
      · simp [h]
      · exact ih p h
    · cases hsplit : splitComma cs with
      | nil => exact absurd hsplit (splitComma_ne_nil cs)
      | cons piece rest =>
        rw [hsplit] at hp ih
        rcases List.mem_cons.1 hp with h | h
        · rw [h]
          intro hmem
          rcases List.mem_cons.1 hmem with h2 | h2
          · exact hc h2.symm
          · exact ih piece (List.mem_cons_self _ _) h2
        · exact ih p (List.mem_cons_of_mem _ h)

theorem splitComma_cons_of_ne (c : Char) (cs piece : List Char) (rest : List (List Char))
    (hc : c ≠ ',') (h : splitComma cs = piece :: rest) :
    splitComma (c :: cs) = (c :: piece) :: rest := by
  rw [splitComma, if_neg hc, h]

theorem splitComma_of_not_mem : ∀ k : List Char, ',' ∉ k → splitComma k = [k] := by
  intro k
  induction k with
  | nil => intro _; rfl
  | cons c cs ih =>
    intro h
    have hc : c ≠ ',' := fun e => h (by simp [e])
    have hcs : ',' ∉ cs := fun e => h (List.mem_cons_of_mem _ e)
    exact splitComma_cons_of_ne c cs cs [] hc (ih hcs)

theorem splitComma_append_comma :
    ∀ (k rest : List Char), ',' ∉ k → splitComma (k ++ ',' :: rest) = k :: splitComma rest := by
  intro k
  induction k with
  | nil =>
    intro rest _
    simp [splitComma]
  | cons c cs ih =>
    intro rest h
    have hc : c ≠ ',' := fun e => h (by simp [e])
    have hcs : ',' ∉ cs := fun e => h (List.mem_cons_of_mem _ e)
    rw [List.cons_append]
    exact splitComma_cons_of_ne c _ cs _ hc (ih rest hcs)

theorem splitComma_joinChars :
    ∀ (rest : List (List Char)) (k : List Char), (∀ x ∈ k :: rest, ',' ∉ x) →
      splitComma (joinChars (k :: rest)) = k :: rest.map (fun r => ' ' :: r) := by
  intro rest
  induction rest with
  | nil =>
    intro k h
    simpa [joinChars] using splitComma_of_not_mem k (h k (List.mem_cons_self _ _))
  | cons k2 rest ih =>
    intro k h
    have hk : ',' ∉ k := h k (List.mem_cons_self _ _)
    have hrest : ∀ x ∈ k2 :: rest, ',' ∉ x := fun x hx => h x (List.mem_cons_of_mem _ hx)
    have hj : joinChars (k :: k2 :: rest) = k ++ ',' :: ' ' :: joinChars (k2 :: rest) := rfl
    rw [hj, splitComma_append_comma k _ hk]
    have hsp : splitComma (' ' :: joinChars (k2 :: rest))
        = (' ' :: k2) :: rest.map (fun r => ' ' :: r) := by
      exact splitComma_cons_of_ne ' ' _ k2 _ (by decide) (ih k2 hrest)
    rw [hsp]
    rfl

theorem trimChars_sublist (p : List Char) : List.Sublist (trimChars p) p := by
  have h1 := List.rdropWhile_prefix isWhiteSpace (l := p.dropWhile isWhiteSpace)
  exact h1.sublist.trans (List.dropWhile_sublist _)

theorem trimChars_head (p : List Char) :
    ∀ c ∈ (trimChars p).head?, isWhiteSpace c = false := by
  intro c hc
  have h1 := List.rdropWhile_prefix isWhiteSpace (l := p.dropWhile isWhiteSpace)
  obtain ⟨t, ht⟩ := h1
  have hd := List.head?_dropWhile_not isWhiteSpace p
  unfold trimChars at hc
  cases hr : List.rdropWhile isWhiteSpace (List.dropWhile isWhiteSpace p) with
  | nil => rw [hr] at hc; simp at hc
  | cons x xs =>
    rw [hr] at hc ht
    simp only [List.head?_cons, Option.mem_def, Option.some.injEq] at hc
    rw [← ht] at hd
    simp only [List.cons_append, List.head?_cons] at hd
    rw [← hc]; exact hd

theorem trimChars_getLast (p : List Char) :
    ∀ c ∈ (trimChars p).getLast?, isWhiteSpace c = false := by
  intro c hc
  unfold trimChars at hc
  have hne : List.rdropWhile isWhiteSpace (List.dropWhile isWhiteSpace p) ≠ [] := by
    intro h
    rw [h] at hc
    simp at hc
  have hlast := List.rdropWhile_last_not isWhiteSpace (p.dropWhile isWhiteSpace) hne
  rw [List.getLast?_eq_getLast _ hne] at hc
  simp only [Option.mem_def, Option.some.injEq] at hc
  rw [← hc]
  simpa using hlast

theorem trimChars_of_clean (k : List Char)
    (hhead : ∀ c ∈ k.head?, isWhiteSpace c = false)
    (hlast : ∀ c ∈ k.getLast?, isWhiteSpace c = false) : trimChars k = k := by
  have hdrop : k.dropWhile isWhiteSpace = k := by
    cases k with
    | nil => rfl
    | cons c cs =>
      have hc : isWhiteSpace c = false := hhead c (by simp)
      simp [List.dropWhile_cons, hc]
  unfold trimChars
  rw [hdrop, List.rdropWhile_eq_self_iff]
  intro hl
  have h := hlast (k.getLast hl) (by rw [List.getLast?_eq_getLast _ hl]; rfl)
  simp [h]

theorem trimChars_space_cons (k : List Char) : trimChars (' ' :: k) = trimChars k := by
  unfold trimChars
  rw [List.dropWhile_cons_of_pos (by decide)]

/-- Parsing the rendering of clean entries gives the entries back, on characters. -/
theorem parse_joinChars (entries : List (List Char))
    (h : ∀ k ∈ entries, k ≠ [] ∧ ',' ∉ k
      ∧ (∀ c ∈ k.head?, isWhiteSpace c = false)
      ∧ (∀ c ∈ k.getLast?, isWhiteSpace c = false)) :
    ((splitComma (joinChars entries)).map trimChars).filter (fun k => !k.isEmpty)
      = entries := by
  have hfilter : entries.filter (fun k => !k.isEmpty) = entries := by
    rw [List.filter_eq_self]
    intro k hk
    have hne := (h k hk).1
    cases k with
    | nil => exact absurd rfl hne
    | cons c cs => rfl
  cases entries with
  | nil => rfl
  | cons k rest =>
    rw [splitComma_joinChars rest k (fun x hx => (h x hx).2.1)]
    have hmap : (k :: rest.map (fun r => ' ' :: r)).map trimChars = k :: rest := by
      rw [List.map_cons, List.map_map,
        trimChars_of_clean k (h k (List.mem_cons_self _ _)).2.2.1
          (h k (List.mem_cons_self _ _)).2.2.2]
      congr 1
      conv_rhs => rw [← List.map_id rest]
      apply List.map_congr_left
      intro r hr
      have hcl := h r (List.mem_cons_of_mem _ hr)
      simp only [Function.comp_apply, id_eq]
      rw [trimChars_space_cons, trimChars_of_clean r hcl.2.2.1 hcl.2.2.2]
    rw [hmap]
    exact hfilter

theorem string_mk_ne_empty (t : List Char) (h : t ≠ []) : String.mk t ≠ "" := by
  intro e
  apply h
  have := congrArg String.data e
  simpa using this

/-- C27: every entry produced by the parsing of a comma-separated field is non-empty,
has no comma and no white space at either end, and the entries keep the order of the
pieces of the input; parsing the rendering `ks.join(', ')` of a list of such entries
gives the list back, the empty list rendering to the empty string and parsing back to
the empty list. -/
theorem parseCommaList_clean_roundtrip (value : String) (ks : List String) :
    (∀ k ∈ parseCommaList value, CleanEntry k)
      ∧ List.Sublist ((parseCommaList value).map String.data)
          ((splitComma value.data).map trimChars)
      ∧ ((∀ k ∈ ks, CleanEntry k) → parseCommaList (joinCommaSpace ks) = ks)
      ∧ joinCommaSpace [] = ""
      ∧ parseCommaList "" = [] := by
  refine ⟨?_, ?_, ?_, rfl, by decide⟩
  · intro k hk
    unfold parseCommaList at hk
    obtain ⟨t, ht, rfl⟩ := List.mem_map.1 hk
    obtain ⟨ht1, ht2⟩ := List.mem_filter.1 ht
    obtain ⟨p, hp, rfl⟩ := List.mem_map.1 ht1
    have hne : trimChars p ≠ [] := by
      intro e
      rw [e] at ht2
      simp at ht2
    refine ⟨string_mk_ne_empty _ hne, ?_, trimChars_head p, trimChars_getLast p⟩
    intro hmem
    exact not_mem_of_mem_splitComma value.data p hp ((trimChars_sublist p).subset hmem)
  · unfold parseCommaList
    rw [List.map_map]
    have hid : (String.data ∘ String.mk) = (id : List Char → List Char) := rfl
    rw [hid, List.map_id]
    exact List.filter_sublist _
  · intro h
    unfold parseCommaList joinCommaSpace
    rw [parse_joinChars (ks.map String.data), List.map_map]
    · have hid : (String.mk ∘ String.data) = (id : String → String) := rfl
      rw [hid, List.map_id]
    · intro t ht
      obtain ⟨k, hk, rfl⟩ := List.mem_map.1 ht
      obtain ⟨h1, h2, h3, h4⟩ := h k hk
      refine ⟨?_, h2, h3, h4⟩
      intro e
      apply h1
      cases k with
      | mk data => simp only at e; rw [e]

/-- Witness of C27: the rendering of two keywords parses back to them. -/
theorem parseCommaList_clean_roundtrip_witness :
    parseCommaList (joinCommaSpace ["sports", "running shoes"])
      = ["sports", "running shoes"] :=
  (parseCommaList_clean_roundtrip "" ["sports", "running shoes"]).2.2.1 (by decide)

/-! ## Metrics -/

theorem foldl_count (data : List SentimentItem) (start : Int) :
    data.foldl (fun total item => total + item.count) start
      = start + (data.map (fun item => item.count)).sum := by
  induction data generalizing start with
  | nil => simp
  | cons item rest ih =>
    simp only [List.foldl_cons, List.map_cons, List.sum_cons]
    rw [ih]
    omega

theorem analyticsTotalMentions_eq_sum (data : List SentimentItem) :
    analyticsTotalMentions data = (data.map (fun item => item.count)).sum := by
  unfold analyticsTotalMentions
  rw [foldl_count]
  omega

theorem findCount_nil (key : String) : findCount [] key = 0 := rfl

theorem findCount_cons (item : SentimentItem) (rest : List SentimentItem) (key : String) :
    findCount (item :: rest) key
      = if item.id = some key then item.count else findCount rest key := by
  unfold findCount
  by_cases h : item.id = some key
  · simp only [List.find?_cons, h, beq_self_eq_true, if_true]
    split_ifs with h0
    · exact h0.symm
    · rfl
  · have hb : (item.id == some key) = false := by simpa using h
    simp only [List.find?_cons, hb, if_neg h]

theorem findCount_nonneg (data : List SentimentItem) (key : String)
    (hnonneg : ∀ item ∈ data, 0 ≤ item.count) : 0 ≤ findCount data key := by
  induction data with
  | nil => simp [findCount_nil]
  | cons item rest ih =>
    rw [findCount_cons]
    have h1 := hnonneg item (List.mem_cons_self _ _)
    have h2 := ih (fun x hx => hnonneg x (List.mem_cons_of_mem _ hx))
    split_ifs <;> assumption

/-- The counts found for three different keys belong to three different items, so
their sum is at most the sum of all counts. -/
theorem findCount_three_le (data : List SentimentItem) (k1 k2 k3 : String)
    (h12 : k1 ≠ k2) (h13 : k1 ≠ k3) (h23 : k2 ≠ k3)
    (hnonneg : ∀ item ∈ data, 0 ≤ item.count) :
    findCount data k1 + findCount data k2 + findCount data k3
      ≤ (data.map (fun item => item.count)).sum := by
  induction data with
  | nil => simp [findCount_nil]
  | cons item rest ih =>
    have hrest : ∀ x ∈ rest, 0 ≤ x.count := fun x hx => hnonneg x (List.mem_cons_of_mem _ hx)
    have h0 := hnonneg item (List.mem_cons_self _ _)
    have ih2 := ih hrest
    have n1 := findCount_nonneg rest k1 hrest
    have n2 := findCount_nonneg rest k2 hrest
    have n3 := findCount_nonneg rest k3 hrest
    simp only [findCount_cons, List.map_cons, List.sum_cons]
    by_cases e1 : item.id = some k1
    · have e2 : item.id ≠ some k2 := fun e => h12 (Option.some.inj (e1.symm.trans e))
      have e3 : item.id ≠ some k3 := fun e => h13 (Option.some.inj (e1.symm.trans e))
      rw [if_pos e1, if_neg e2, if_neg e3]
      omega
    · by_cases e2 : item.id = some k2
      · have e3 : item.id ≠ some k3 := fun e => h23 (Option.some.inj (e2.symm.trans e))
        rw [if_neg e1, if_pos e2, if_neg e3]
        omega
      · by_cases e3 : item.id = some k3
        · rw [if_neg e1, if_neg e2, if_pos e3]
          omega
        · rw [if_neg e1, if_neg e2, if_neg e3]
          omega

theorem percentage_bounds (count total : Int) (h0 : 0 ≤ count) (h1 : count ≤ total) :
    0 ≤ percentage count total ∧ percentage count total ≤ 100 := by
  unfold percentage
  split_ifs with ht
  · have htq : (0 : ℚ) < (total : ℚ) := by exact_mod_cast ht
    have hcq : (0 : ℚ) ≤ (count : ℚ) := by exact_mod_cast h0
    have hle : (count : ℚ) ≤ (total : ℚ) := by exact_mod_cast h1
    constructor
    · positivity
    · have hd : (count : ℚ) / (total : ℚ) ≤ 1 := (div_le_one htq).2 hle
      nlinarith
  · exact ⟨le_refl _, by norm_num⟩

/-- C28: in `Analytics`, for a sentiment distribution with non-negative counts,
`totalMentions` is the sum of all counts; the positive, negative and neutral counts are
each at most `totalMentions` and so is their sum; each of the three percentages, as an
exact rational, lies between 0 and 100 and is 0 when `totalMentions` is 0. -/
theorem analytics_metrics_bounds (data : List SentimentItem)
    (hnonneg : ∀ item ∈ data, 0 ≤ item.count) :
    analyticsTotalMentions data = (data.map (fun item => item.count)).sum
      ∧ findCount data "positive" ≤ analyticsTotalMentions data
      ∧ findCount data "negative" ≤ analyticsTotalMentions data
      ∧ findCount data "neutral" ≤ analyticsTotalMentions data
      ∧ findCount data "positive" + findCount data "negative" + findCount data "neutral"
          ≤ analyticsTotalMentions data
      ∧ (0 ≤ analyticsPercentage data "positive" ∧ analyticsPercentage data "positive" ≤ 100)
      ∧ (0 ≤ analyticsPercentage data "negative" ∧ analyticsPercentage data "negative" ≤ 100)
      ∧ (0 ≤ analyticsPercentage data "neutral" ∧ analyticsPercentage data "neutral" ≤ 100)
      ∧ (analyticsTotalMentions data = 0 →
          analyticsPercentage data "positive" = 0 ∧ analyticsPercentage data "negative" = 0
            ∧ analyticsPercentage data "neutral" = 0) := by
  have hsum := findCount_three_le data "positive" "negative" "neutral"
    (by decide) (by decide) (by decide) hnonneg
  rw [← analyticsTotalMentions_eq_sum] at hsum
  have p1 := findCount_nonneg data "positive" hnonneg
  have p2 := findCount_nonneg data "negative" hnonneg
  have p3 := findCount_nonneg data "neutral" hnonneg
  refine ⟨analyticsTotalMentions_eq_sum data, by omega, by omega, by omega, hsum,
    percentage_bounds _ _ p1 (by omega), percentage_bounds _ _ p2 (by omega),
    percentage_bounds _ _ p3 (by omega), ?_⟩
  intro hzero
  simp [analyticsPercentage, percentage, hzero]

/-- Witness of C28: 3 positive, 1 negative and 4 neutral mentions. -/
theorem analytics_metrics_bounds_witness :
    analyticsTotalMentions
        [{ id := some "positive", count := 3 }, { id := some "negative", count := 1 },
          { id := some "neutral", count := 4 }] = 8
      ∧ analyticsPercentage
        [{ id := some "positive", count := 3 }, { id := some "negative", count := 1 },
          { id := some "neutral", count := 4 }] "positive" ≤ 100 := by
  have h := analytics_metrics_bounds
    [{ id := some "positive", count := 3 }, { id := some "negative", count := 1 },
      { id := some "neutral", count := 4 }] (by decide)
  exact ⟨by rw [h.1]; decide, h.2.2.2.2.2.1.2⟩

/-- C29, the code at the failing input: the store holds the 50 mentions of a capped
fetch while the sentiment distribution of the brand counts 120 positive mentions; the
positive percentage of `Dashboard` is 240, and `Analytics` gives 100 for the same
distribution. -/
theorem dashboard_percentage_exceeds_100 :
    dashboardTotalMentions ((List.range 50).map (fun i => sampleOf "Acme" (toString i))) = 50
      ∧ dashboardPercentage ((List.range 50).map (fun i => sampleOf "Acme" (toString i)))
          [{ id := some "positive", count := 120 }] "positive" = 240
      ∧ (100 : ℚ) < dashboardPercentage
          ((List.range 50).map (fun i => sampleOf "Acme" (toString i)))
          [{ id := some "positive", count := 120 }] "positive"
      ∧ analyticsPercentage [{ id := some "positive", count := 120 }] "positive" = 100 := by
  have hlen : dashboardTotalMentions
      ((List.range 50).map (fun i => sampleOf "Acme" (toString i))) = 50 := by
    simp [dashboardTotalMentions]
  have hcount : findCount [{ id := some "positive", count := 120 }] "positive" = 120 := by
    decide
  have hp : dashboardPercentage ((List.range 50).map (fun i => sampleOf "Acme" (toString i)))
      [{ id := some "positive", count := 120 }] "positive" = 240 := by
    unfold dashboardPercentage
    rw [hlen, hcount]
    norm_num [percentage]
  refine ⟨hlen, hp, ?_, ?_⟩
  · rw [hp]; norm_num
  · unfold analyticsPercentage
    rw [hcount]
    norm_num [percentage, analyticsTotalMentions]

/-- C30, the code at the failing input: a brand list load is requested while no brand
is selected and another load is in flight; the first response selects Acme, the user
then selects Globex, and the second response, whose handler still sees the empty
selection it captured, selects Acme again. -/
theorem fetchBrands_overrides_selection :
    (run? initialAppState
        [Event.mount, Event.brandsUpdate,
          Event.brandsResponse "" [sampleBrand "Acme", sampleBrand "Globex"],
          Event.selectChange "Globex"]).map
        (fun s => (s.selectedBrand, s.pendingBrands))
      = some ("Globex", [""])
      ∧ (run? initialAppState
        [Event.mount, Event.brandsUpdate,
          Event.brandsResponse "" [sampleBrand "Acme", sampleBrand "Globex"],
          Event.selectChange "Globex",
          Event.brandsResponse "" [sampleBrand "Acme", sampleBrand "Globex"]]).map
        (fun s => (s.selectedBrand, s.brands, s.mentions))
      = some ("Acme", [sampleBrand "Acme", sampleBrand "Globex"], []) := by
  decide

/-! ## The merge sort agrees with the stable sort on consistent comparators -/

section MergeFacts

variable {α : Type}

theorem takeWhile_takeWhile_append (p q : α → Bool) (a : α) (rest : List α)
    (hpa : p a = false) :
    ∀ ys : List α, (∀ y ∈ ys, p y = true → q y = true) →
      (ys.takeWhile q ++ a :: rest).takeWhile p = ys.takeWhile p := by
  intro ys
  induction ys with
  | nil => intro _; simp [List.takeWhile, hpa]
  | cons y ys ih =>
    intro h
    have ih2 := ih (fun z hz => h z (List.mem_cons_of_mem _ hz))
    cases hq : q y with
    | true =>
      cases hp : p y with
      | true => simp [List.takeWhile, hq, hp, ih2]
      | false => simp [List.takeWhile, hq, hp]
    | false =>
      have hp : p y = false := by
        cases hp : p y with
        | true => rw [h y (List.mem_cons_self _ _) hp] at hq; exact absurd hq (by decide)
        | false => rfl
      simp [List.takeWhile, hq, hp, hpa]

theorem dropWhile_takeWhile_append (p q : α → Bool) (a : α) (rest : List α)
    (hpa : p a = false) :
    ∀ ys : List α, (∀ y ∈ ys, p y = true → q y = true) →
      (ys.takeWhile q ++ a :: rest).dropWhile p
        = (ys.dropWhile p).takeWhile q ++ a :: rest := by
  intro ys
  induction ys with
  | nil => intro _; simp [List.takeWhile, List.dropWhile, hpa]
  | cons y ys ih =>
    intro h
    have ih2 := ih (fun z hz => h z (List.mem_cons_of_mem _ hz))
    cases hq : q y with
    | true =>
      cases hp : p y with
      | true => simp [List.takeWhile, List.dropWhile, hq, hp, ih2]
      | false => simp [List.takeWhile, List.dropWhile, hq, hp]
    | false =>
      have hp : p y = false := by
        cases hp : p y with
        | true => rw [h y (List.mem_cons_self _ _) hp] at hq; exact absurd hq (by decide)
        | false => rfl
      simp [List.takeWhile, List.dropWhile, hq, hp, hpa]

theorem dropWhile_dropWhile_of_imp (p q : α → Bool) :
    ∀ ys : List α, (∀ y ∈ ys, p y = true → q y = true) →
      (ys.dropWhile p).dropWhile q = ys.dropWhile q := by
  intro ys
  induction ys with
  | nil => intro _; rfl
  | cons y ys ih =>
    intro h
    have ih2 := ih (fun z hz => h z (List.mem_cons_of_mem _ hz))
    cases hp : p y with
    | true =>
      have hq := h y (List.mem_cons_self _ _) hp
      simp [List.dropWhile, hp, hq, ih2]
    | false => simp [List.dropWhile, hp]

theorem mergeRuns_perm (comparefn : α → α → Option Int) :
    ∀ xs ys : List α, (mergeRuns comparefn xs ys).Perm (xs ++ ys) := by
  intro xs
  induction xs with
  | nil => intro ys; exact List.Perm.refl _
  | cons x xs ih =>
    intro ys
    rw [mergeRuns]
    have h1 := ih (ys.dropWhile (fun y => decide (¬ SortCompare comparefn x y ≤ 0)))
    have h2 : (ys.takeWhile (fun y => decide (¬ SortCompare comparefn x y ≤ 0))
        ++ ys.dropWhile (fun y => decide (¬ SortCompare comparefn x y ≤ 0))) = ys :=
      List.takeWhile_append_dropWhile _ _
    refine List.perm_middle.trans (List.Perm.cons x ?_)
    refine (List.Perm.append_left _ h1).trans ?_
    rw [← List.append_assoc]
    refine (List.Perm.append_right _ List.perm_append_comm).trans ?_
    rw [List.append_assoc, h2]
    exact List.Perm.refl _

theorem mergeRuns_cons_eq (comparefn : α → α → Option Int) (x : α) (xs ys : List α) :
    mergeRuns comparefn (x :: xs) ys
      = ys.takeWhile (fun y => decide (¬ SortCompare comparefn x y ≤ 0))
        ++ x :: mergeRuns comparefn xs
          (ys.dropWhile (fun y => decide (¬ SortCompare comparefn x y ≤ 0))) := rfl

/-- Merging a run that starts with `x` is inserting `x` into the merge of the rest. -/
theorem mergeRuns_cons (comparefn : α → α → Option Int) (x : α) (xs ys : List α)
    (hx : ∀ a ∈ xs, SortCompare comparefn x a ≤ 0)
    (htr : ∀ a ∈ xs, ∀ y ∈ ys, SortCompare comparefn x a ≤ 0 →
      SortCompare comparefn a y ≤ 0 → SortCompare comparefn x y ≤ 0) :
    mergeRuns comparefn (x :: xs) ys
      = List.orderedInsert (fun u v => SortCompare comparefn u v ≤ 0) x
          (mergeRuns comparefn xs ys) := by
  rw [List.orderedInsert_eq_take_drop]
  cases xs with
  | nil => rfl
  | cons a xs =>
    have hxa : SortCompare comparefn x a ≤ 0 := hx a (List.mem_cons_self _ _)
    have hpa : (fun y => decide (¬ SortCompare comparefn x y ≤ 0)) a = false := by
      simp [hxa]
    have himp : ∀ y ∈ ys, (fun y => decide (¬ SortCompare comparefn x y ≤ 0)) y = true →
        (fun y => decide (¬ SortCompare comparefn a y ≤ 0)) y = true := by
      intro y hy h
      simp only [decide_eq_true_eq] at h ⊢
      intro hay
      exact h (htr a (List.mem_cons_self _ _) y hy hxa hay)
    rw [mergeRuns_cons_eq comparefn x, mergeRuns_cons_eq comparefn a,
      mergeRuns_cons_eq comparefn a]
    rw [takeWhile_takeWhile_append _ _ a _ hpa ys himp,
      dropWhile_takeWhile_append _ _ a _ hpa ys himp,
      dropWhile_dropWhile_of_imp _ _ ys himp]

/-- Two insertions commute when one element strictly precedes the other. -/
theorem orderedInsert_comm (r : α → α → Prop) [DecidableRel r] (a x : α) (hax : r a x)
    (hxa : ¬ r x a) :
    ∀ l : List α, (∀ t ∈ l, r x t → r a t) →
      (l.orderedInsert r x).orderedInsert r a = (l.orderedInsert r a).orderedInsert r x := by
  intro l
  induction l with
  | nil => intro _; simp [List.orderedInsert, hax, hxa]
  | cons t l ih =>
    intro h
    have ih2 := ih (fun u hu => h u (List.mem_cons_of_mem _ hu))
    by_cases hxt : r x t
    · have hat : r a t := h t (List.mem_cons_self _ _) hxt
      simp [List.orderedInsert, hxt, hat, hax, hxa]
    · by_cases hat : r a t
      · simp [List.orderedInsert, hxt, hat, hxa]
      · simp [List.orderedInsert, hxt, hat, ih2]

/-- Merging after an insertion is inserting after the merge, for a sorted left run. -/
theorem mergeRuns_orderedInsert (comparefn : α → α → Option Int) (P : α → Prop)
    (htot : ∀ a b, P a → P b →
      SortCompare comparefn a b ≤ 0 ∨ SortCompare comparefn b a ≤ 0)
    (htrans : ∀ a b c, P a → P b → P c → SortCompare comparefn a b ≤ 0 →
      SortCompare comparefn b c ≤ 0 → SortCompare comparefn a c ≤ 0)
    (x : α) (hx : P x) :
    ∀ xs : List α, (∀ a ∈ xs, P a) →
      xs.Pairwise (fun u v => SortCompare comparefn u v ≤ 0) →
      ∀ ys : List α, (∀ y ∈ ys, P y) →
        mergeRuns comparefn
            (xs.orderedInsert (fun u v => SortCompare comparefn u v ≤ 0) x) ys
          = (mergeRuns comparefn xs ys).orderedInsert
              (fun u v => SortCompare comparefn u v ≤ 0) x := by
  intro xs
  induction xs with
  | nil =>
    intro _ _ ys _
    exact mergeRuns_cons comparefn x [] ys (fun a ha => absurd ha (List.not_mem_nil a))
      (fun a ha => absurd ha (List.not_mem_nil a))
  | cons a xs ih =>
    intro hP hs ys hys
    have ha : P a := hP a (List.mem_cons_self _ _)
    have hPxs : ∀ t ∈ xs, P t := fun t ht => hP t (List.mem_cons_of_mem _ ht)
    have hsa : ∀ t ∈ xs, SortCompare comparefn a t ≤ 0 := fun t ht =>
      List.rel_of_pairwise_cons hs ht
    have hmerge_a : mergeRuns comparefn (a :: xs) ys
        = (mergeRuns comparefn xs ys).orderedInsert
            (fun u v => SortCompare comparefn u v ≤ 0) a :=
      mergeRuns_cons comparefn a xs ys hsa
        (fun t ht y hy h1 h2 => htrans a t y ha (hPxs t ht) (hys y hy) h1 h2)
    rw [List.orderedInsert]
    split_ifs with h
    · refine mergeRuns_cons comparefn x (a :: xs) ys ?_ ?_
      · intro t ht
        rcases List.mem_cons.1 ht with e | ht
        · rw [e]; exact h
        · exact htrans x a t hx ha (hPxs t ht) h (hsa t ht)
      · intro t ht y hy h1 h2
        exact htrans x t y hx (hP t ht) (hys y hy) h1 h2
    · have hax : SortCompare comparefn a x ≤ 0 := (htot x a hx ha).resolve_left h
      have hins : ∀ t ∈ xs.orderedInsert (fun u v => SortCompare comparefn u v ≤ 0) x,
          t = x ∨ t ∈ xs := fun t ht => (List.mem_orderedInsert _).1 ht
      rw [mergeRuns_cons comparefn a _ ys, ih hPxs (List.Pairwise.of_cons hs) ys hys,
        orderedInsert_comm _ a x hax h, ← hmerge_a]
      · intro t ht hxt
        have hPt : P t := by
          rcases List.mem_append.1 ((mergeRuns_perm comparefn xs ys).mem_iff.1 ht) with e | e
          · exact hPxs t e
          · exact hys t e
        exact htrans a x t ha hx hPt hax hxt
      · intro t ht
        rcases hins t ht with e | e
        · rw [e]; exact hax
        · exact hsa t e
      · intro t ht y hy h1 h2
        have hPt : P t := by
          rcases hins t ht with e | e
          · rw [e]; exact hx
          · exact hPxs t e
        exact htrans a t y ha hPt (hys y hy) h1 h2

/-- Merging two stably sorted lists gives the stable sort of their concatenation. -/
theorem mergeRuns_insertionSort (comparefn : α → α → Option Int) (P : α → Prop)
    (htot : ∀ a b, P a → P b →
      SortCompare comparefn a b ≤ 0 ∨ SortCompare comparefn b a ≤ 0)
    (htrans : ∀ a b c, P a → P b → P c → SortCompare comparefn a b ≤ 0 →
      SortCompare comparefn b c ≤ 0 → SortCompare comparefn a c ≤ 0) :
    ∀ xs ys : List α, (∀ a ∈ xs, P a) → (∀ y ∈ ys, P y) →
      mergeRuns comparefn
          (xs.insertionSort (fun u v => SortCompare comparefn u v ≤ 0))
          (ys.insertionSort (fun u v => SortCompare comparefn u v ≤ 0))
        = (xs ++ ys).insertionSort (fun u v => SortCompare comparefn u v ≤ 0) := by
  intro xs
  induction xs with
  | nil => intro ys _ _; rfl
  | cons x xs ih =>
    intro ys hxs hys
    have hPxs : ∀ t ∈ xs, P t := fun t ht => hxs t (List.mem_cons_of_mem _ ht)
    have hsorted : ∀ t ∈ ys.insertionSort (fun u v => SortCompare comparefn u v ≤ 0), P t :=
      fun t ht => hys t ((List.perm_insertionSort _ ys).mem_iff.1 ht)
    rw [List.insertionSort, List.cons_append, List.insertionSort,
      mergeRuns_orderedInsert comparefn P htot htrans x (hxs x (List.mem_cons_self _ _))
        _ (fun t ht => hPxs t ((List.perm_insertionSort _ xs).mem_iff.1 ht))
        (pairwise_insertionSort_on _ P htot htrans xs hPxs) _ hsorted,
      ih ys hPxs hys]

theorem mergeSortDepth_perm (comparefn : α → α → Option Int) :
    ∀ (depth : Nat) (l : List α), (mergeSortDepth comparefn depth l).Perm l := by
  intro depth
  induction depth with
  | zero => intro l; exact List.Perm.refl _
  | succ depth ih =>
    intro l
    rw [mergeSortDepth]
    split_ifs with h
    · exact List.Perm.refl _
    · refine (mergeRuns_perm comparefn _ _).trans ?_
      refine ((ih _).append (ih _)).trans ?_
      rw [List.take_append_drop]

/-- With enough depth the merge sort returns the stable sorted arrangement, when the
comparator is total and transitive on the elements. -/
theorem mergeSortDepth_eq_insertionSort (comparefn : α → α → Option Int) (P : α → Prop)
    (htot : ∀ a b, P a → P b →
      SortCompare comparefn a b ≤ 0 ∨ SortCompare comparefn b a ≤ 0)
    (htrans : ∀ a b c, P a → P b → P c → SortCompare comparefn a b ≤ 0 →
      SortCompare comparefn b c ≤ 0 → SortCompare comparefn a c ≤ 0) :
    ∀ (depth : Nat) (l : List α), l.length ≤ depth → (∀ t ∈ l, P t) →
      mergeSortDepth comparefn depth l
        = l.insertionSort (fun u v => SortCompare comparefn u v ≤ 0) := by
  intro depth
  induction depth with
  | zero =>
    intro l hl _
    have : l = [] := List.length_eq_zero.1 (Nat.le_zero.1 hl)
    rw [this]; rfl
  | succ depth ih =>
    intro l hl hP
    rw [mergeSortDepth]
    split_ifs with h
    · cases l with
      | nil => rfl
      | cons x l =>
        cases l with
        | nil => rfl
        | cons y l =>
          simp only [List.length_cons] at h
          omega
    · have hlen : 2 ≤ l.length := by omega
      have hhalf : 1 ≤ l.length / 2 := by omega
      rw [ih (l.take (l.length / 2)) (by rw [List.length_take]; omega)
          (fun t ht => hP t (List.mem_of_mem_take ht)),
        ih (l.drop (l.length / 2)) (by rw [List.length_drop]; omega)
          (fun t ht => hP t (List.mem_of_mem_drop ht)),
        mergeRuns_insertionSort comparefn P htot htrans _ _
          (fun t ht => hP t (List.mem_of_mem_take ht))
          (fun t ht => hP t (List.mem_of_mem_drop ht)),
        List.take_append_drop]

end MergeFacts

/-! ## Idempotence of the pipeline -/

theorem consistentOn_total {α : Type} (comparefn : α → α → Option Int) (l : List α)
    (h : ConsistentOn comparefn l) (a b : α) (ha : a ∈ l) (hb : b ∈ l) :
    SortCompare comparefn a b ≤ 0 ∨ SortCompare comparefn b a ≤ 0 := by
  obtain ⟨_, hrefl, _, _, _, hgt⟩ := h
  have h1 := hrefl a ha
  have h2 := hgt a ha b hb a ha
  by_contra hcon
  rw [not_or] at hcon
  omega

theorem consistentOn_trans {α : Type} (comparefn : α → α → Option Int) (l : List α)
    (h : ConsistentOn comparefn l) (a b c : α) (ha : a ∈ l) (hb : b ∈ l) (hc : c ∈ l)
    (hab : SortCompare comparefn a b ≤ 0) (hbc : SortCompare comparefn b c ≤ 0) :
    SortCompare comparefn a c ≤ 0 := by
  obtain ⟨_, hrefl, hsym, heq, hlt, hgt⟩ := h
  have r1 := hrefl a ha
  have s1 := hsym c hc a ha
  have s2 := hsym b hb c hc
  have s3 := hsym a ha b hb
  have g1 := hgt a ha c hc a ha
  have e1 := heq a ha b hb c hc
  have l1 := hlt a ha b hb c hc
  have l2 := hlt c hc a ha b hb
  have l3 := hlt b hb c hc a ha
  by_contra hcon
  omega

theorem consistentOn_of_perm {α : Type} (comparefn : α → α → Option Int) (l l2 : List α)
    (hp : l2.Perm l) (h : ConsistentOn comparefn l) : ConsistentOn comparefn l2 := by
  obtain ⟨h0, hrefl, hsym, heq, hlt, hgt⟩ := h
  have hm : ∀ t, t ∈ l2 → t ∈ l := fun t ht => hp.mem_iff.1 ht
  exact ⟨fun a ha b hb => h0 a (hm a ha) b (hm b hb),
    fun a ha => hrefl a (hm a ha),
    fun a ha b hb => hsym a (hm a ha) b (hm b hb),
    fun a ha b hb c hc => heq a (hm a ha) b (hm b hb) c (hm c hc),
    fun a ha b hb c hc => hlt a (hm a ha) b (hm b hb) c (hm c hc),
    fun a ha b hb c hc => hgt a (hm a ha) b (hm b hb) c (hm c hc)⟩

/-- A comparator that subtracts a numeric key is consistent. -/
theorem consistentOn_of_key {α : Type} (comparefn : α → α → Option Int) (l : List α)
    (key : α → Int)
    (h : ∀ a ∈ l, ∀ b ∈ l, comparefn a b = some (key b - key a)) :
    ConsistentOn comparefn l := by
  have hv : ∀ a ∈ l, ∀ b ∈ l, SortCompare comparefn a b = key b - key a := by
    intro a ha b hb
    simp [SortCompare, h a ha b hb]
  refine ⟨?_, ?_, ?_, ?_, ?_, ?_⟩
  · intro a ha b hb
    rw [h a ha b hb]
    exact Option.some_ne_none _
  · intro a ha
    rw [hv a ha a ha]
    omega
  · intro a ha b hb
    rw [hv a ha b hb, hv b hb a ha]
    omega
  · intro a ha b hb c hc
    rw [hv a ha b hb, hv b hb c hc, hv a ha c hc]
    omega
  · intro a ha b hb c hc
    rw [hv a ha b hb, hv b hb c hc, hv a ha c hc]
    omega
  · intro a ha b hb c hc
    rw [hv a ha b hb, hv b hb c hc, hv a ha c hc]
    omega

/-- The comparator of `MentionList` is consistent on a list whose timestamps are well
formed (for `newest` and `oldest`) and whose sentiments are ranked (for `sentiment`). -/
theorem compareFn_consistentOn (sortBy : String) (l : List Mention)
    (htime : sortBy = "newest" ∨ sortBy = "oldest" → ∀ m ∈ l, m.timestamp ≠ none)
    (hsentiment : sortBy = "sentiment" → ∀ m ∈ l, sentimentOrder m.sentiment ≠ none) :
    ConsistentOn (compareFn sortBy) l := by
  by_cases h1 : sortBy = "newest"
  · subst h1
    refine consistentOn_of_key _ l (fun m => m.timestamp.getD 0) ?_
    intro a ha b hb
    obtain ⟨x, hx⟩ := Option.ne_none_iff_exists'.1 (htime (Or.inl rfl) a ha)
    obtain ⟨y, hy⟩ := Option.ne_none_iff_exists'.1 (htime (Or.inl rfl) b hb)
    simp [compareFn, jsSub, hx, hy]
  by_cases h2 : sortBy = "oldest"
  · subst h2
    refine consistentOn_of_key _ l (fun m => - m.timestamp.getD 0) ?_
    intro a ha b hb
    obtain ⟨x, hx⟩ := Option.ne_none_iff_exists'.1 (htime (Or.inr rfl) a ha)
    obtain ⟨y, hy⟩ := Option.ne_none_iff_exists'.1 (htime (Or.inr rfl) b hb)
    simp only [compareFn, jsSub, hx, hy, Option.getD_some, Option.some.injEq]
    omega
  by_cases h3 : sortBy = "engagement"
  · subst h3
    exact consistentOn_of_key _ l (fun m => (getEngagementScore m.engagement : Int))
      (fun a _ b _ => rfl)
  by_cases h4 : sortBy = "sentiment"
  · subst h4
    refine consistentOn_of_key _ l (fun m => (sentimentOrder m.sentiment).getD 0) ?_
    intro a ha b hb
    obtain ⟨x, hx⟩ := Option.ne_none_iff_exists'.1 (hsentiment rfl a ha)
    obtain ⟨y, hy⟩ := Option.ne_none_iff_exists'.1 (hsentiment rfl b hb)
    simp [compareFn, jsSub, hx, hy]
  · refine consistentOn_of_key _ l (fun _ => 0) ?_
    intro a _ b _
    rw [compareFn_default sortBy a b h1 h2 h3 h4]
    rfl

/-- The stable insertion sort meets the requirement on `Array.prototype.sort`. -/
theorem arraySort_conforming : ConformingSort arraySort :=
  fun _ l => ⟨List.perm_insertionSort _ l, fun _ => rfl⟩

/-- The stable merge sort meets the requirement on `Array.prototype.sort`. -/
theorem mergeSort_conforming : ConformingSort mergeSort := by
  intro comparefn l
  refine ⟨mergeSortDepth_perm comparefn l.length l, ?_⟩
  intro h
  exact mergeSortDepth_eq_insertionSort comparefn (fun t => t ∈ l)
    (fun a b ha hb => consistentOn_total comparefn l h a b ha hb)
    (fun a b c ha hb hc => consistentOn_trans comparefn l h a b c ha hb hc)
    l.length l (le_refl _) (fun _ ht => ht)

/-- C9, as stated, fails: with `Array.prototype.sort` implemented as a stable merge sort,
which meets the language requirement, the pipeline applied to its own output gives a
different sequence, under `sentiment` for a collection with an unknown sentiment and
under `newest` for a collection with an Invalid Date. -/
theorem pipeline_not_idempotent_merge_sort :
    ConformingSort mergeSort
      ∧ (sortedMentionsWith mergeSort asciiLower initialFilters "sentiment"
          sixSentiments).map (fun m => m.id) = ["3", "0", "1", "2", "4", "5"]
      ∧ (sortedMentionsWith mergeSort asciiLower initialFilters "sentiment"
          (sortedMentionsWith mergeSort asciiLower initialFilters "sentiment"
            sixSentiments)).map (fun m => m.id) = ["3", "2", "0", "1", "4", "5"]
      ∧ sortedMentionsWith mergeSort asciiLower initialFilters "sentiment"
          (sortedMentionsWith mergeSort asciiLower initialFilters "sentiment" sixSentiments)
        ≠ sortedMentionsWith mergeSort asciiLower initialFilters "sentiment" sixSentiments
      ∧ sortedMentionsWith mergeSort asciiLower initialFilters "newest"
          (sortedMentionsWith mergeSort asciiLower initialFilters "newest" sixTimestamps)
        ≠ sortedMentionsWith mergeSort asciiLower initialFilters "newest" sixTimestamps :=
  ⟨mergeSort_conforming, by decide, by decide, by decide, by decide⟩

/-- C9 (amended): for every implementation of `Array.prototype.sort` that meets the
language requirement and every collection, criteria and sort key for which the
comparator is consistent on the filtered mentions (well-formed timestamps under
`newest` and `oldest`, sentiments among positive, neutral and negative under
`sentiment`, no condition under `engagement` and unrecognised keys), the pipeline
applied to its own output returns that output unchanged; the output is the same for
every such implementation. -/
theorem sortedMentionsWith_idempotent
    (sort : (Mention → Mention → Option Int) → List Mention → List Mention)
    (hsort : ConformingSort sort) (toLowerCase : String → String) (filters : Filters)
    (sortBy : String) (mentions : List Mention)
    (htime : sortBy = "newest" ∨ sortBy = "oldest" →
      ∀ m ∈ filteredMentions toLowerCase filters mentions, m.timestamp ≠ none)
    (hsentiment : sortBy = "sentiment" →
      ∀ m ∈ filteredMentions toLowerCase filters mentions,
        m.sentiment = "positive" ∨ m.sentiment = "neutral" ∨ m.sentiment = "negative") :
    sortedMentionsWith sort toLowerCase filters sortBy
        (sortedMentionsWith sort toLowerCase filters sortBy mentions)
      = sortedMentionsWith sort toLowerCase filters sortBy mentions
      ∧ sortedMentionsWith sort toLowerCase filters sortBy mentions
        = sortedMentions toLowerCase filters sortBy mentions := by
  have hcons : ConsistentOn (compareFn sortBy)
      (filteredMentions toLowerCase filters mentions) := by
    refine compareFn_consistentOn sortBy _ htime ?_
    intro hs m hm
    rcases hsentiment hs m hm with e | e | e <;> rw [e] <;> decide
  have hview : sortedMentionsWith sort toLowerCase filters sortBy mentions
      = sortedMentions toLowerCase filters sortBy mentions :=
    (hsort (compareFn sortBy) _).2 hcons
  have hperm : (sortedMentions toLowerCase filters sortBy mentions).Perm
      (filteredMentions toLowerCase filters mentions) := List.perm_insertionSort _ _
  have hfilter : filteredMentions toLowerCase filters
      (sortedMentions toLowerCase filters sortBy mentions)
        = sortedMentions toLowerCase filters sortBy mentions := by
    unfold filteredMentions
    rw [List.filter_eq_self]
    intro m hm
    exact (List.mem_filter.1 ((mem_sortedMentions _ _ _ _ m).1 hm)).2
  have hchain : (sortedMentions toLowerCase filters sortBy mentions).Chain'
      (fun x y => SortCompare (compareFn sortBy) x y ≤ 0) :=
    chain_insertionSort _ (fun a b => sortCompare_total sortBy a b) _
  refine ⟨?_, hview⟩
  rw [hview]
  show sort (compareFn sortBy) (filteredMentions toLowerCase filters
      (sortedMentions toLowerCase filters sortBy mentions)) = _
  rw [hfilter, (hsort (compareFn sortBy) _).2
    (consistentOn_of_perm _ _ _ hperm hcons)]
  exact insertionSort_eq_of_chain _ _ hchain

/-- Witness of C9 (amended): the merge sort under `sentiment` on mentions with ranked
sentiments. -/
theorem sortedMentionsWith_idempotent_witness :
    sortedMentionsWith mergeSort asciiLower initialFilters "sentiment"
        (sortedMentionsWith mergeSort asciiLower initialFilters "sentiment"
          [sample "a" "negative" (some 1) none, sample "b" "positive" (some 2) none,
            sample "c" "neutral" (some 3) none, sample "d" "positive" (some 4) none])
      = sortedMentionsWith mergeSort asciiLower initialFilters "sentiment"
          [sample "a" "negative" (some 1) none, sample "b" "positive" (some 2) none,
            sample "c" "neutral" (some 3) none, sample "d" "positive" (some 4) none] :=
  (sortedMentionsWith_idempotent mergeSort mergeSort_conforming asciiLower initialFilters
    "sentiment"
    [sample "a" "negative" (some 1) none, sample "b" "positive" (some 2) none,
      sample "c" "neutral" (some 3) none, sample "d" "positive" (some 4) none]
    (by decide) (by decide)).1

end BrandTracker
